import Mathlib

/-!
# openCM — verification of the spec against the repository

The repository `getcognition-online/openCM` ships a Next.js website
(`src/app/models/page.tsx`, `src/app/spec/page.tsx`, `src/app/page.tsx`,
`src/app/layout.tsx`) together with a normative document (`docs/spec.md`)
describing a causal-model engine (expression evaluator, model validator,
Monte-Carlo simulation engine, composition engine).  The engine itself is
implemented nowhere in the repository — the design spec states this
explicitly — so the engine definitions below are modelled from the spec's
words (each such definition says so in its doc comment), while the
website pages are shallowly embedded from the TypeScript source.

Numbers are modelled as `ℚ`; the transcendental built-ins (`log`, `exp`,
`sqrt`, `**`) are abstracted into a `MathOps` record of functions on `ℚ`,
since only their *domain checks*, never their values, matter to any claim
(every claim is proved for all interpretations).  `EffectEstimate`
carries the variance instead of the standard deviation
(`std = sqrt variance`, so `std = 0 ↔ variance = 0`), keeping every
definition executable over `ℚ`.  Monte-Carlo noise is modelled by an
explicit stream `z : Nat → String → ℚ` of standard draws (sample index
and variable to draw), with `normal mean std` realised as
`mean + std * z` and `uniform low high` as `low + (high - low) * z`, so
that a distribution whose standard deviation is zero is deterministic
for every stream — claims quantify over all streams.
-/

namespace OpenCM

/-! ## Generic association-list helpers -/

/-- First-occurrence lookup in an association list (the map semantics used
throughout: earliest binding wins). -/
def lookupFst {α : Type} : List (String × α) → String → Option α
  | [], _ => none
  | p :: rest, k => if p.1 = k then some p.2 else lookupFst rest k

/-- Does the association list contain the key? -/
def hasKey {α : Type} (l : List (String × α)) (k : String) : Bool :=
  l.any (fun p => p.1 = k)

/-- Lookup with default `0`, used for numeric environments. -/
def lookupD (env : List (String × ℚ)) (k : String) : ℚ :=
  (lookupFst env k).getD 0

/-! ## Expression Engine (spec §4.1)

Modelled from the spec: the repository contains no expression-engine
source; the AST shape ("explicit tagged-AST (literal, identifier,
unary-op, binary-op, call)", §9), the fixed built-in set
`{abs, min, max, log, exp, sqrt}` and the error behaviour (unbound
identifiers are a hard error, `log`/`sqrt` domain violations raise
`DomainError`) follow §4.1 of `spec.md`. -/

/-- Unary built-in functions of the expression mini-language. -/
inductive UnFn where
  | abs | log | exp | sqrt
deriving DecidableEq

/-- Binary built-in functions of the expression mini-language. -/
inductive BinFn where
  | min | max
deriving DecidableEq

/-- Modelled from the spec: the tagged expression AST of §4.1/§9
(literal, identifier, unary minus, the four binary operators plus `**`,
and calls to the closed built-in function set). -/
inductive Expr where
  | lit (q : ℚ)
  | ident (name : String)
  | neg (a : Expr)
  | add (a b : Expr)
  | sub (a b : Expr)
  | mul (a b : Expr)
  | div (a b : Expr)
  | pow (a b : Expr)
  | call1 (f : UnFn) (a : Expr)
  | call2 (f : BinFn) (a b : Expr)
deriving DecidableEq

/-- The identifiers occurring in an expression, in left-to-right order. -/
def identsOf : Expr → List String
  | .lit _ => []
  | .ident n => [n]
  | .neg a => identsOf a
  | .add a b => identsOf a ++ identsOf b
  | .sub a b => identsOf a ++ identsOf b
  | .mul a b => identsOf a ++ identsOf b
  | .div a b => identsOf a ++ identsOf b
  | .pow a b => identsOf a ++ identsOf b
  | .call1 _ a => identsOf a
  | .call2 _ a b => identsOf a ++ identsOf b

/-- Abstract interpretations of the non-rational built-ins.  The engine's
IEEE-754 doubles are modelled as `ℚ`; `log`, `exp`, `sqrt` and `**` have
no exact `ℚ` counterpart, so the evaluator is parameterised over their
interpretation — every claim below holds for all interpretations. -/
structure MathOps where
  log : ℚ → ℚ
  exp : ℚ → ℚ
  sqrt : ℚ → ℚ
  pow : ℚ → ℚ → ℚ

/-- Evaluation errors of the expression engine (spec §4.1/§7):
`ExpressionError(UnboundIdentifier)` and the two `DomainError`s. -/
inductive EvalError where
  | unbound (name : String)
  | logNonPositive
  | sqrtNegative
deriving DecidableEq

/-- Modelled from the spec: `evaluate(ast, bindings) -> number | EvalError`
(§4.1).  Identifiers resolve only against the bindings; an unresolved
identifier is a hard `UnboundIdentifier` error; `log` of a non-positive
input and `sqrt` of a negative input are `DomainError`s rather than NaN. -/
def evaluate (ops : MathOps) (b : List (String × ℚ)) : Expr → Except EvalError ℚ
  | .lit q => .ok q
  | .ident n =>
      match lookupFst b n with
      | some v => .ok v
      | none => .error (.unbound n)
  | .neg a =>
      match evaluate ops b a with
      | .error e => .error e
      | .ok x => .ok (-x)
  | .add a c =>
      match evaluate ops b a with
      | .error e => .error e
      | .ok x =>
        match evaluate ops b c with
        | .error e => .error e
        | .ok y => .ok (x + y)
  | .sub a c =>
      match evaluate ops b a with
      | .error e => .error e
      | .ok x =>
        match evaluate ops b c with
        | .error e => .error e
        | .ok y => .ok (x - y)
  | .mul a c =>
      match evaluate ops b a with
      | .error e => .error e
      | .ok x =>
        match evaluate ops b c with
        | .error e => .error e
        | .ok y => .ok (x * y)
  | .div a c =>
      match evaluate ops b a with
      | .error e => .error e
      | .ok x =>
        match evaluate ops b c with
        | .error e => .error e
        | .ok y => .ok (x / y)
  | .pow a c =>
      match evaluate ops b a with
      | .error e => .error e
      | .ok x =>
        match evaluate ops b c with
        | .error e => .error e
        | .ok y => .ok (ops.pow x y)
  | .call1 f a =>
      match evaluate ops b a with
      | .error e => .error e
      | .ok x =>
        match f with
        | .abs => .ok |x|
        | .log => if x ≤ 0 then .error .logNonPositive else .ok (ops.log x)
        | .exp => .ok (ops.exp x)
        | .sqrt => if x < 0 then .error .sqrtNegative else .ok (ops.sqrt x)
  | .call2 f a c =>
      match evaluate ops b a with
      | .error e => .error e
      | .ok x =>
        match evaluate ops b c with
        | .error e => .error e
        | .ok y =>
          match f with
          | .min => .ok (min x y)
          | .max => .ok (max x y)

/-- A concrete interpretation of the transcendental built-ins, used only
by witnesses: the claims hold for every interpretation. -/
def opsId : MathOps := ⟨id, id, id, fun x _ => x⟩

/-! ## Data model (spec §3)

Modelled from the spec: variables, edges, structural equations and
causal models as described in §3; fields that no claim touches
(units, observability flags, versions, metadata blocks) are omitted. -/

/-- Variable type tags (§3). -/
inductive VarType where
  | continuous | discrete | binary | categorical
deriving DecidableEq

/-- Modelled from the spec: a variable declaration (§3). -/
structure Variable where
  vtype : VarType
  domain : ℚ × ℚ
  categories : Option (List String)
  default_value : Option ℚ
deriving DecidableEq

/-- Modelled from the spec: a causal edge (§3).  The relationship type is
kept as a raw string so that the validator's "unknown edge type" advisory
warning is expressible. -/
structure Edge where
  source : String
  target : String
  etype : String
  strength : ℚ
  confidence : ℚ
deriving DecidableEq

/-- Modelled from the spec: a noise distribution with its parameters
(`mean`/`std` or `low`/`high`, §3). -/
inductive Dist where
  | normal (mean std : ℚ)
  | uniform (low high : ℚ)
deriving DecidableEq

/-- One standard draw from a distribution, realised from a stream value
`z`: `normal mean std` is `mean + std * z`, `uniform low high` is
`low + (high - low) * z`.  A zero-std normal and a degenerate uniform
are deterministic for every `z`. -/
def Dist.draw : Dist → ℚ → ℚ
  | .normal m s, z => m + s * z
  | .uniform a b, z => a + (b - a) * z

/-- Is a distribution's standard deviation zero?  (`normal _ 0`, or a
degenerate `uniform a a` whose spread — hence std — is zero.) -/
def Dist.stdZero : Dist → Bool
  | .normal _ s => s = 0
  | .uniform a b => a = b

/-- The deterministic value of a zero-std distribution: the mean of the
normal, the collapsed endpoint of the uniform. -/
def Dist.detValue : Dist → ℚ
  | .normal m _ => m
  | .uniform a _ => a

/-- Modelled from the spec: a structural equation — an expression AST and
a noise distribution (§3). -/
structure StructuralEquation where
  expr : Expr
  dist : Dist
deriving DecidableEq

/-- Modelled from the spec: a validated causal model (§3): identity, the
variable map, the edge list, the equation map and the assumption list. -/
structure CausalModel where
  id : String
  name : String
  «variables» : List (String × Variable)
  edges : List Edge
  equations : List (String × StructuralEquation)
  assumptions : List String
deriving DecidableEq

/-- Modelled from the spec (§4.3/§9): the sign rule for fallback linear
combinations — `inhibits` auto-negates a positive strength, all other
edge types contribute the strength unchanged. -/
def signFor (etype : String) (strength : ℚ) : ℚ :=
  if etype = "inhibits" then -|strength| else strength

/-- The incoming edges of a variable. -/
def incomingEdges (edges : List Edge) (v : String) : List Edge :=
  edges.filter (fun e => e.target == v)

/-- The declared parents of a variable: the sources of its incoming
edges (§4.2 phase 7). -/
def parentsOf (edges : List Edge) (v : String) : List String :=
  (incomingEdges edges v).map (·.source)

/-- Clip a value to a `(min, max)` domain (§4.3, clip-to-domain policy). -/
def clip (dom : ℚ × ℚ) (x : ℚ) : ℚ :=
  max dom.1 (min dom.2 x)

/-- The midpoint of a domain (§4.3, exogenous default). -/
def midpoint (dom : ℚ × ℚ) : ℚ :=
  (dom.1 + dom.2) / 2

/-- The declared domain of a variable, `[0, 1]` (the documented default)
if the variable is undeclared. -/
def domainOf (m : CausalModel) (v : String) : ℚ × ℚ :=
  match lookupFst m.variables v with
  | some vr => vr.domain
  | none => (0, 1)

/-- The value of a non-intervened exogenous variable: its
`default_value` if declared, else the midpoint of its domain (§4.3). -/
def exogDefault (m : CausalModel) (v : String) : ℚ :=
  match (lookupFst m.variables v).bind (·.default_value) with
  | some q => q
  | none => midpoint (domainOf m v)

/-! ## Topological order (spec §4.3): Kahn's algorithm -/

/-- Has `v` no incoming edge whose source is still unprocessed? -/
def noIncoming (edges : List Edge) (remaining : List String) (v : String) : Bool :=
  !(edges.any (fun e => e.target == v && remaining.contains e.source))

/-- Modelled from the spec: Kahn's algorithm with ties broken by the
variables' declaration order (§4.3): repeatedly emit the first remaining
variable with no incoming edge from a remaining variable.  The fuel
equals the number of vertices; on a cycle no vertex is ready and the
output simply ends early. -/
def kahnAux (edges : List Edge) : Nat → List String → List String
  | 0, _ => []
  | fuel + 1, remaining =>
      match remaining.find? (noIncoming edges remaining) with
      | none => []
      | some v => v :: kahnAux edges fuel (remaining.erase v)

/-- The cached topological order of a model's variable ids (§4.3). -/
def topoOrder (vars : List String) (edges : List Edge) : List String :=
  kahnAux edges vars.length vars

/-- Is the edge graph acyclic?  Kahn's algorithm consumes every vertex
exactly when the graph is a DAG. -/
def acyclicB (vars : List String) (edges : List Edge) : Bool :=
  (topoOrder vars edges).length == vars.length

/-- The vertices not consumed by Kahn's algorithm: the residue containing
every cycle, reported as the offending path. -/
def leftoverOf (vars : List String) (edges : List Edge) : List String :=
  vars.filter (fun v => !((topoOrder vars edges).contains v))

/-! ## Model Validator (spec §4.2)

Modelled from the spec: the repository contains no validator source.
The raw document has `Option`-typed required fields so that the phase-1
presence checks are expressible; the eight phases below follow §4.2
point for point, each phase gated exactly as the spec gates it. -/

/-- Modelled from the spec: the `model` identity block (§4.2 phase 2,
§3). -/
structure RawModelId where
  id : String
  name : String
  domain : Option String
deriving DecidableEq

/-- Modelled from the spec: a raw (unvalidated) document.  Required
top-level fields are `Option`s (phase 1 checks their presence);
`structural_equations` and `assumptions` are optional in the format. -/
structure RawDoc where
  opencm_version : Option String
  model : Option RawModelId
  «variables» : Option (List (String × Variable))
  edges : Option (List Edge)
  equations : List (String × StructuralEquation)
  assumptions : Option (List String)
deriving DecidableEq

/-- Diagnostic severities (§4.2): `error` blocks construction of the
model, `warning` never does. -/
inductive Severity where
  | error | warning
deriving DecidableEq

/-- Stable diagnostic codes, one per §4.2 check. -/
inductive DiagCode where
  | schemaMissing (field : String)
  | badModelId
  | emptyModelName
  | domainBounds (v : String)
  | missingCategories (v : String)
  | unknownEdgeRef (v : String)
  | selfLoop (v : String)
  | strengthRange (s t : String)
  | confidenceRange (s t : String)
  | cycleDetected (path : List String)
  | unknownEquationTarget (t : String)
  | undeclaredParent (t i : String)
  | unknownDomainTag (d : String)
  | noAssumptions
  | unknownEdgeType (t : String)
deriving DecidableEq

/-- A diagnostic: a severity and a stable code (§4.2 contract). -/
structure Diagnostic where
  sev : Severity
  code : DiagCode
deriving DecidableEq

/-- Shorthand for an error diagnostic. -/
def derr (c : DiagCode) : Diagnostic := ⟨.error, c⟩

/-- Shorthand for a warning diagnostic. -/
def dwarn (c : DiagCode) : Diagnostic := ⟨.warning, c⟩

/-- Is `c` an ASCII lowercase letter (the slug regex `[a-z]`)? -/
def isSlugLower (c : Char) : Bool :=
  'a' ≤ c && c ≤ 'z'

/-- Is `c` allowed in a slug tail (`[a-z0-9_]`)? -/
def isSlugTail (c : Char) : Bool :=
  isSlugLower c || ('0' ≤ c && c ≤ '9') || c = '_'

/-- Does the string match the slug regex `^[a-z][a-z0-9_]*$` (§4.2
phase 2)? -/
def slugOk (s : String) : Bool :=
  match s.data with
  | [] => false
  | c :: rest => isSlugLower c && rest.all isSlugTail

/-- Referential integrity of an edge list against a variable map: every
endpoint is a declared variable (§4.2 phase 4). -/
def refOkB (vars : List (String × Variable)) (edges : List Edge) : Bool :=
  edges.all (fun e => hasKey vars e.source && hasKey vars e.target)

/-- The known edge types (§3); anything else is an advisory warning. -/
def knownEdgeTypes : List String :=
  ["causes", "inhibits", "correlates", "mediates", "moderates"]

/-- The recognized `model.domain` values (`docs/spec.md` §11). -/
def knownDomains : List String :=
  ["strategy", "marketing", "finance", "operations", "organization",
   "technology", "economics", "psychology", "healthcare", "supply_chain",
   "general"]

/-- Phase 1: presence of the required top-level fields. -/
def phase1 (d : RawDoc) : List Diagnostic :=
  (if d.opencm_version.isSome then [] else [derr (.schemaMissing "opencm_version")])
  ++ (if d.model.isSome then [] else [derr (.schemaMissing "model")])
  ++ (if d.variables.isSome then [] else [derr (.schemaMissing "variables")])
  ++ (if d.edges.isSome then [] else [derr (.schemaMissing "edges")])

/-- Does phase 1 pass? -/
def p1b (d : RawDoc) : Bool :=
  d.opencm_version.isSome && d.model.isSome && d.variables.isSome && d.edges.isSome

/-- Phase 2: model identity (runs only when the `model` block exists). -/
def phase2 (d : RawDoc) : List Diagnostic :=
  match d.model with
  | none => []
  | some m =>
      (if slugOk m.id then [] else [derr .badModelId])
      ++ (if m.name = "" then [derr .emptyModelName] else [])

/-- Does phase 2 pass? -/
def p2b (d : RawDoc) : Bool :=
  match d.model with
  | none => true
  | some m => slugOk m.id && !(decide (m.name = ""))

/-- Phase 3: per-variable checks — domain bounds (error), categorical
without categories (warning). -/
def phase3 (d : RawDoc) : List Diagnostic :=
  match d.variables with
  | none => []
  | some vs =>
      vs.flatMap (fun p =>
        (if p.2.domain.1 < p.2.domain.2 then [] else [derr (.domainBounds p.1)])
        ++ (if p.2.vtype = .categorical ∧ p.2.categories = none
            then [dwarn (.missingCategories p.1)] else []))

/-- Does phase 3 pass (only the error-severity check counts)? -/
def p3b (d : RawDoc) : Bool :=
  match d.variables with
  | none => true
  | some vs => vs.all (fun p => decide (p.2.domain.1 < p.2.domain.2))

/-- Phase 4: referential integrity of the edges. -/
def phase4 (d : RawDoc) : List Diagnostic :=
  match d.variables, d.edges with
  | some vs, some es =>
      es.flatMap (fun e =>
        (if hasKey vs e.source then [] else [derr (.unknownEdgeRef e.source)])
        ++ (if hasKey vs e.target then [] else [derr (.unknownEdgeRef e.target)]))
  | _, _ => []

/-- Does phase 4 pass? -/
def p4b (d : RawDoc) : Bool :=
  match d.variables, d.edges with
  | some vs, some es => refOkB vs es
  | _, _ => true

/-- Phase 5: structural per-edge checks — self-loops, strength and
confidence ranges. -/
def phase5 (d : RawDoc) : List Diagnostic :=
  match d.edges with
  | none => []
  | some es =>
      es.flatMap (fun e =>
        (if e.source = e.target then [derr (.selfLoop e.source)] else [])
        ++ (if -1 ≤ e.strength ∧ e.strength ≤ 1 then []
            else [derr (.strengthRange e.source e.target)])
        ++ (if 0 ≤ e.confidence ∧ e.confidence ≤ 1 then []
            else [derr (.confidenceRange e.source e.target)]))

/-- Does phase 5 pass? -/
def p5b (d : RawDoc) : Bool :=
  match d.edges with
  | none => true
  | some es =>
      es.all (fun e =>
        (!(decide (e.source = e.target))
          && decide (-1 ≤ e.strength ∧ e.strength ≤ 1))
        && decide (0 ≤ e.confidence ∧ e.confidence ≤ 1))

/-- Phase 6: cycle detection; runs only when phases 4–5 passed (§4.2). -/
def phase6 (d : RawDoc) : List Diagnostic :=
  match d.variables, d.edges with
  | some vs, some es =>
      if p4b d && p5b d then
        if acyclicB (vs.map (·.1)) es then []
        else [derr (.cycleDetected (leftoverOf (vs.map (·.1)) es))]
      else []
  | _, _ => []

/-- Does phase 6 pass (vacuously when it does not run)? -/
def p6b (d : RawDoc) : Bool :=
  match d.variables, d.edges with
  | some vs, some es => !(p4b d && p5b d) || acyclicB (vs.map (·.1)) es
  | _, _ => true

/-- Phase 7: equation checks — target exists, every identifier of the
expression is a declared parent. -/
def phase7 (d : RawDoc) : List Diagnostic :=
  match d.variables, d.edges with
  | some vs, some es =>
      d.equations.flatMap (fun p =>
        (if hasKey vs p.1 then [] else [derr (.unknownEquationTarget p.1)])
        ++ ((identsOf p.2.expr).flatMap (fun i =>
              if (parentsOf es p.1).contains i then []
              else [derr (.undeclaredParent p.1 i)])))
  | _, _ => []

/-- Does phase 7 pass? -/
def p7b (d : RawDoc) : Bool :=
  match d.variables, d.edges with
  | some vs, some es =>
      d.equations.all (fun p =>
        hasKey vs p.1
        && (identsOf p.2.expr).all (fun i => (parentsOf es p.1).contains i))
  | _, _ => true

/-- Phase 8: advisory warnings — unknown `model.domain`, absent
`assumptions`, unknown edge `type`.  Warnings only. -/
def phase8 (d : RawDoc) : List Diagnostic :=
  (match d.model with
   | some m =>
       match m.domain with
       | some dom => if knownDomains.contains dom then [] else [dwarn (.unknownDomainTag dom)]
       | none => []
   | none => [])
  ++ (match d.assumptions with
      | none => [dwarn .noAssumptions]
      | some _ => [])
  ++ (match d.edges with
      | some es =>
          es.flatMap (fun e =>
            if knownEdgeTypes.contains e.etype then [] else [dwarn (.unknownEdgeType e.etype)])
      | none => [])

/-- All diagnostics of the eight-phase pipeline, accumulated in order. -/
def allDiags (d : RawDoc) : List Diagnostic :=
  phase1 d ++ phase2 d ++ phase3 d ++ phase4 d ++ phase5 d ++ phase6 d
  ++ phase7 d ++ phase8 d

/-- Do all error-severity checks pass, i.e. is the document structurally
sound? -/
def structOk (d : RawDoc) : Bool :=
  p1b d && p2b d && p3b d && p4b d && p5b d && p6b d && p7b d

/-- Build the validated in-memory model from a raw document (total; only
used when `structOk` holds, where every `getD` default is dead). -/
def buildModel (d : RawDoc) : CausalModel :=
  { id := (d.model.map (·.id)).getD ""
    name := (d.model.map (·.name)).getD ""
    «variables» := d.variables.getD []
    edges := d.edges.getD []
    equations := d.equations
    assumptions := (d.assumptions).getD [] }

/-- Modelled from the spec: `validate(raw) -> (CausalModel?, list<Diagnostic>)`
(§4.2) — the accumulated diagnostics of every phase that can run, plus
the constructed model exactly when the document is structurally sound. -/
def validate (d : RawDoc) : Option CausalModel × List Diagnostic :=
  (if structOk d then some (buildModel d) else none, allDiags d)

/-- Is a diagnostic list free of error-severity entries? -/
def errFreeB (l : List Diagnostic) : Bool :=
  l.all (fun g => !(g.sev == .error))

/-! ## Simulation Engine (spec §4.3)

Modelled from the spec: the repository contains no simulation source.
`applyLens` computes and caches the Kahn order; `simulate` walks it once
per sample, pins intervened variables (do-operator), evaluates equations
against the already-computed parent values plus one noise draw, falls
back to the sign-weighted linear combination for endogenous variables
without an equation, holds exogenous variables at their default, clips
to the domain, drops a sample on a `DomainError`, and aggregates. -/

/-- A lens: a model with its cached topological evaluation order. -/
structure Lens where
  model : CausalModel
  order : List String
deriving DecidableEq

/-- The defensive re-check failure of `apply_lens` (§4.3). -/
inductive CycleError where
  | cycle (stuck : List String)
deriving DecidableEq

/-- Modelled from the spec: `apply_lens(model) -> Lens` — compute the
topological order via Kahn's algorithm (declaration-order tie-break) and
cache it; fail with `CycleError` if some vertex cannot be ordered. -/
def applyLens (m : CausalModel) : Except CycleError Lens :=
  let ids := m.variables.map (·.1)
  if (topoOrder ids m.edges).length = ids.length then
    .ok ⟨m, topoOrder ids m.edges⟩
  else
    .error (.cycle (leftoverOf ids m.edges))

/-- The bindings an equation is evaluated against: the already-computed
values of the target's direct parents (§4.3). -/
def parentBindings (m : CausalModel) (env : List (String × ℚ)) (v : String) :
    List (String × ℚ) :=
  (parentsOf m.edges v).map (fun p => (p, lookupD env p))

/-- The fallback linear combination for an endogenous variable without an
equation: `sum over incoming edges of sign(type) * strength * parent`
(§4.3). -/
def fallbackSum (m : CausalModel) (env : List (String × ℚ)) (v : String) : ℚ :=
  ((incomingEdges m.edges v).map
    (fun e => signFor e.etype e.strength * lookupD env e.source)).sum

/-- The value of one variable within one sample walk, given the values
`env` computed so far and the draw stream `z` of this sample:
intervened ⇒ pinned; equation ⇒ evaluate + noise, clipped; no equation
but incoming edges ⇒ fallback sum, clipped; otherwise the exogenous
default. -/
def stepVal (ops : MathOps) (m : CausalModel) (iv : List (String × ℚ))
    (z : String → ℚ) (env : List (String × ℚ)) (v : String) :
    Except EvalError ℚ :=
  match lookupFst iv v with
  | some pin => .ok pin
  | none =>
      match lookupFst m.equations v with
      | some sq =>
          match evaluate ops (parentBindings m env v) sq.expr with
          | .error e => .error e
          | .ok x => .ok (clip (domainOf m v) (x + sq.dist.draw (z v)))
      | none =>
          if (incomingEdges m.edges v).isEmpty then .ok (exogDefault m v)
          else .ok (clip (domainOf m v) (fallbackSum m env v))

/-- Walk the remaining order, extending the environment; an evaluation
error invalidates the whole sample. -/
def walkAux (ops : MathOps) (m : CausalModel) (iv : List (String × ℚ))
    (z : String → ℚ) : List String → List (String × ℚ) →
    Except EvalError (List (String × ℚ))
  | [], env => .ok env
  | v :: rest, env =>
      match stepVal ops m iv z env v with
      | .error e => .error e
      | .ok x => walkAux ops m iv z rest (env ++ [(v, x)])

/-- One Monte-Carlo sample: walk the cached order from the empty
environment. -/
def walkSample (ops : MathOps) (lens : Lens) (iv : List (String × ℚ))
    (z : String → ℚ) : Except EvalError (List (String × ℚ)) :=
  walkAux ops lens.model iv z lens.order []

/-- Per-variable aggregate (§3).  The spec's `std` is the square root of
`variance`; carrying the variance keeps the structure rational, and
`std = 0 ↔ variance = 0`. -/
structure EffectEstimate where
  mean : ℚ
  variance : ℚ
  count : Nat
deriving DecidableEq

/-- A reported estimate: defined, or undefined when every sample for the
variable was invalidated (§4.3). -/
inductive EstResult where
  | defined (e : EffectEstimate)
  | undefined
deriving DecidableEq

/-- The mean of a list of values. -/
def meanL (xs : List ℚ) : ℚ :=
  xs.sum / xs.length

/-- The (population) variance of a list of values. -/
def varianceL (xs : List ℚ) : ℚ :=
  ((xs.map (fun x => (x - meanL xs) ^ 2)).sum) / xs.length

/-- Dynamic simulation failure (§7): the intervention references a
variable absent from the model. -/
inductive SimError where
  | unknownInterventionVar (v : String)
deriving DecidableEq

/-- The environments of the samples that were not invalidated by a
`DomainError` (§4.3: an invalid sample is dropped from the aggregate). -/
def validSamples (ops : MathOps) (lens : Lens) (iv : List (String × ℚ))
    (n : Nat) (z : Nat → String → ℚ) : List (List (String × ℚ)) :=
  ((List.range n).map (fun i => walkSample ops lens iv (z i))).filterMap
    (fun s =>
      match s with
      | .ok env => some env
      | .error _ => none)

/-- The aggregate reported for one variable: an intervened variable
reports `mean = pinned value, std = 0` with the full sample count; any
other variable aggregates its values over the valid samples, and is
undefined when none remain (§4.3). -/
def aggregateVar (ops : MathOps) (lens : Lens) (iv : List (String × ℚ))
    (n : Nat) (z : Nat → String → ℚ) (id : String) : EstResult :=
  match lookupFst iv id with
  | some pin => .defined ⟨pin, 0, n⟩
  | none =>
      let xs := (validSamples ops lens iv n z).filterMap (fun env => lookupFst env id)
      if xs.isEmpty then .undefined
      else .defined ⟨meanL xs, varianceL xs, xs.length⟩

/-- Modelled from the spec: `simulate(lens, intervention, n_samples)` —
reject interventions on unknown variables; draw `n` samples; drop
invalid samples; aggregate per variable (§4.3). -/
def simulate (ops : MathOps) (lens : Lens) (iv : List (String × ℚ))
    (n : Nat) (z : Nat → String → ℚ) :
    Except SimError (List (String × EstResult)) :=
  match iv.find? (fun p => !(hasKey lens.model.variables p.1)) with
  | some p => .error (.unknownInterventionVar p.1)
  | none =>
      .ok (lens.model.variables.map (fun p => (p.1, aggregateVar ops lens iv n z p.1)))

/-! ## Composition Engine (spec §4.4)

Modelled from the spec: the repository contains no composition source.
The merge is an explicit order-preserving fold over ordered sequences
(§9): variables and equations keep the earliest definition per key,
edges keep the higher-confidence edge per `(source, target)` key with
ties broken in favour of the earliest, assumptions are concatenated with
provenance prefixes, and the validator's referential-integrity and
cycle-detection phases re-run on the merged graph. -/

/-- Add a keyed entry unless its key is already present (earliest model
wins, §4.4 steps 1 and 3). -/
def mergeKeyedAcc {α : Type} (acc : List (String × α)) (p : String × α) :
    List (String × α) :=
  if hasKey acc p.1 then acc else acc ++ [p]

/-- Union of the models' variable maps, earliest model winning per id. -/
def mergeVars (ms : List CausalModel) : List (String × Variable) :=
  (ms.flatMap (·.variables)).foldl mergeKeyedAcc []

/-- Union of the models' equation maps, earliest model winning per
target. -/
def mergeEqs (ms : List CausalModel) : List (String × StructuralEquation) :=
  (ms.flatMap (·.equations)).foldl mergeKeyedAcc []

/-- Merge one edge into the accumulated edge list: a new
`(source, target)` key is appended; a colliding key keeps the incumbent
unless the newcomer has strictly higher confidence (so ties favour the
earliest model), replacing in place. -/
def mergeEdgeAcc (acc : List Edge) (e : Edge) : List Edge :=
  if acc.any (fun f => f.source == e.source && f.target == e.target) then
    acc.map (fun f =>
      if f.source == e.source && f.target == e.target
          && decide (f.confidence < e.confidence)
      then e else f)
  else acc ++ [e]

/-- Union of the models' edge lists keyed by `(source, target)`. -/
def mergeEdges (ms : List CausalModel) : List Edge :=
  (ms.flatMap (·.edges)).foldl mergeEdgeAcc []

/-- Assumptions concatenated in input order, each prefixed with its
originating model's id (§4.4 step 4). -/
def mergeAssumptions (ms : List CausalModel) : List String :=
  ms.flatMap (fun m => m.assumptions.map (fun a => "[" ++ m.id ++ "] " ++ a))

/-- Composition failures (§4.4/§7). -/
inductive CompositionError where
  | refViolation (source target : String)
  | cycleIntroduced (path : List String)
deriving DecidableEq

/-- The first edge of the merged graph whose endpoints are not both
declared, if any. -/
def findRefViolation (vs : List (String × Variable)) (es : List Edge) :
    Option Edge :=
  es.find? (fun e => !(hasKey vs e.source && hasKey vs e.target))

/-- Modelled from the spec: `compose(models) -> CausalModel | CompositionError`
(§4.4) — deterministic ordered merge, then the validator's
referential-integrity and cycle-detection phases on the merged graph; on
a cycle the call fails with `CycleIntroduced` and no model is returned. -/
def compose (ms : List CausalModel) : Except CompositionError CausalModel :=
  let vs := mergeVars ms
  let es := mergeEdges ms
  match findRefViolation vs es with
  | some e => .error (.refViolation e.source e.target)
  | none =>
      if acyclicB (vs.map (·.1)) es then
        .ok ⟨"composed", "Composed Model", vs, es, mergeEqs ms, mergeAssumptions ms⟩
      else
        .error (.cycleIntroduced (leftoverOf (vs.map (·.1)) es))

/-- Per-key first-match edge lookup. -/
def findEdge (es : List Edge) (s t : String) : Option Edge :=
  es.find? (fun f => f.source == s && f.target == t)

/-- The §4.4 step-2 tie-break, per key: with an incumbent and a
newcomer, the higher confidence wins and the incumbent (earliest model)
wins ties. -/
def edgeMergePick (o₁ o₂ : Option Edge) : Option Edge :=
  match o₁, o₂ with
  | some a, some b => some (if a.confidence < b.confidence then b else a)
  | some a, none => some a
  | none, o => o

/-- Are the `(source, target)` keys of an edge list pairwise distinct
(the §3 invariant "edges are unique per (source, target)")? -/
def edgeKeysNodup (es : List Edge) : Prop :=
  (es.map (fun e => (e.source, e.target))).Nodup

/-! ## The website pages (embedded from the TypeScript source)

`src/app/models/page.tsx` lists the files of the models directory;
`src/app/spec/page.tsx` converts `docs/spec.md` to HTML line by line.
JavaScript semantics that matter are modelled faithfully:
`String.prototype.replace` with a string pattern replaces only the first
occurrence; `a?.b` yields `undefined` unless `a` is an object with the
field; `x || y` falls back on any falsy `x` (including `""` and `0`);
`JSON.parse` keeps the last of duplicate object keys; a thrown exception
aborts the whole page render. -/

/-- Replace the first occurrence of `pat` (JS `String.replace` with a
string pattern); no occurrence leaves the string unchanged, and the
empty pattern matches at the start. -/
def replaceFirstList (pat repl : List Char) : List Char → List Char
  | [] => if pat.isPrefixOf ([] : List Char) then repl else []
  | c :: rest =>
      if pat.isPrefixOf (c :: rest) then repl ++ (c :: rest).drop pat.length
      else c :: replaceFirstList pat repl rest

/-- `String`-level first-occurrence replacement. -/
def replaceFirst (pat repl s : String) : String :=
  ⟨replaceFirstList pat.data repl.data s.data⟩

/-- Does `pat` occur as a contiguous substring? -/
def containsSub (pat : List Char) : List Char → Bool
  | [] => pat.isPrefixOf ([] : List Char)
  | c :: rest => pat.isPrefixOf (c :: rest) || containsSub pat rest

/-- JS `String.endsWith`. -/
def endsWithL (suffix s : String) : Bool :=
  suffix.data.isSuffixOf s.data

/-- JS `String.startsWith`. -/
def startsWithL (prefixStr s : String) : Bool :=
  prefixStr.data.isPrefixOf s.data

/-- JS `String.substring(n)` / drop the first `n` characters. -/
def strDrop (n : Nat) (s : String) : String :=
  ⟨s.data.drop n⟩

/-- The whitespace characters removed by JS `String.trim`. -/
def jsWhitespace (c : Char) : Bool :=
  c = ' ' || c = '\t' || c = '\n' || c = '\r' || c = '\x0b' || c = '\x0c'

/-- JS `String.trim`: strip leading and trailing whitespace. -/
def jsTrim (s : String) : String :=
  ⟨((s.data.dropWhile jsWhitespace).reverse.dropWhile jsWhitespace).reverse⟩

/-- JS `String.split('\n')`: always at least one piece, a trailing
newline yields a trailing empty piece. -/
def splitNl : List Char → List (List Char)
  | [] => [[]]
  | c :: rest =>
      if c = '\n' then [] :: splitNl rest
      else
        match splitNl rest with
        | [] => [[c]]
        | l :: ls => (c :: l) :: ls

/-- The `'\n'`-separated lines of a document. -/
def specLines (content : String) : List String :=
  (splitNl content.data).map (fun l => ⟨l⟩)

/-- A JSON value as produced by `JSON.parse`. -/
inductive Json where
  | null
  | bool (b : Bool)
  | num (q : ℚ)
  | str (s : String)
  | arr (elems : List Json)
  | obj (fields : List (String × Json))

/-- Object-field lookup; `JSON.parse` keeps the last of duplicate keys,
so the last binding wins. -/
def jsLookup (fields : List (String × Json)) (k : String) : Option Json :=
  fields.foldl (fun acc p => if p.1 = k then some p.2 else acc) none

/-- JS property access `a[k]` on a parsed value: `undefined` (`none`)
unless `a` is an object carrying the field. -/
def Json.get? : Json → String → Option Json
  | .obj fields, k => jsLookup fields k
  | _, _ => none

/-- JS truthiness of a parsed JSON value (`NaN` is not representable). -/
def jsTruthy : Json → Bool
  | .null => false
  | .bool b => b
  | .num q => decide (q ≠ 0)
  | .str s => decide (s ≠ "")
  | .arr _ => true
  | .obj _ => true

/-- JS `x || y` on an optional (possibly `undefined`) value. -/
def jsOr (v : Option Json) (fallback : Json) : Json :=
  match v with
  | some x => if jsTruthy x then x else fallback
  | none => fallback

/-- `content.metadata?.k` — the metadata sub-field, `undefined` unless
both accesses succeed. -/
def metaField (content : Json) (k : String) : Option Json :=
  (content.get? "metadata").bind (fun md => md.get? k)

/-- One card of the model listing (`src/app/models/page.tsx`, lines
12–17). -/
structure ModelEntry where
  id : String
  name : Json
  description : Json
  domain : Json

/-- The entry built for one file (`models/page.tsx`, lines 12–17):
`id` drops the first occurrence of `.opencm.json` from the filename,
the remaining fields read `content.metadata` with `||`-fallbacks. -/
def entryOfFile (filename : String) (content : Json) : ModelEntry :=
  { id := replaceFirst ".opencm.json" "" filename
    name := jsOr (metaField content "name") (.str filename)
    description := jsOr (metaField content "description")
      (.str "A validated causal model in OpenCM format.")
    domain := jsOr (metaField content "domain") (.str "General") }

/-- Map the filtered files to entries; the first parse failure throws and
aborts the whole render (`JSON.parse` inside the `map` callback,
`models/page.tsx` line 11). -/
def mapFiles : List (String × Except String Json) → Except String (List ModelEntry)
  | [] => .ok []
  | f :: rest =>
      match f.2 with
      | .error e => .error e
      | .ok j =>
          match mapFiles rest with
          | .error e => .error e
          | .ok es => .ok (entryOfFile f.1 j :: es)

/-- `ModelsPage` (`models/page.tsx`, lines 5–18): read the directory
(whose failure propagates), keep the filenames ending in `.json`, parse
each and build its entry. -/
def modelsPage (dir : Except String (List (String × Except String Json))) :
    Except String (List ModelEntry) :=
  match dir with
  | .error e => .error e
  | .ok files => mapFiles (files.filter (fun f => endsWithL ".json" f.1))

/-- The HTML element kinds produced per line by `SpecPage`
(`spec/page.tsx`, lines 12–20). -/
inductive RLine where
  | h1 (s : String)
  | h2 (s : String)
  | h3 (s : String)
  | li (s : String)
  | hr
  | br
  | p (s : String)
deriving DecidableEq

/-- The per-line classifier of `SpecPage` (`spec/page.tsx`, lines 13–19),
embedded clause for clause: `startsWith` prefixes in order, JS `replace`
(first occurrence) for the heading text, `substring(2)` for list items,
trimmed `---` to a rule, blank to a break, else a paragraph. -/
def renderLine (line : String) : RLine :=
  if startsWithL "# " line then .h1 (replaceFirst "# " "" line)
  else if startsWithL "## " line then .h2 (replaceFirst "## " "" line)
  else if startsWithL "### " line then .h3 (replaceFirst "### " "" line)
  else if startsWithL "* " line || startsWithL "- " line then .li (strDrop 2 line)
  else if jsTrim line = "---" then .hr
  else if jsTrim line = "" then .br
  else .p line

/-- The rendered body of `SpecPage`: one element per `'\n'`-separated
line. -/
def renderSpec (content : String) : List RLine :=
  (specLines content).map renderLine

/-- The per-line classifier as claim C10 words it: the same fixed rule
order, with heading text as the line minus its matched prefix and list
text as the line minus its first two characters. -/
def renderLineClaim (line : String) : RLine :=
  if startsWithL "# " line then .h1 (strDrop 2 line)
  else if startsWithL "## " line then .h2 (strDrop 3 line)
  else if startsWithL "### " line then .h3 (strDrop 4 line)
  else if startsWithL "* " line || startsWithL "- " line then .li (strDrop 2 line)
  else if jsTrim line = "---" then .hr
  else if jsTrim line = "" then .br
  else .p line

/-! ## Concrete instances used by witnesses and counterexamples -/

/-- A two-variable model `X → Y` used by witnesses. -/
def mW : CausalModel :=
  { id := "m"
    name := "M"
    «variables» :=
      [("X", ⟨.continuous, (0, 10), none, none⟩),
       ("Y", ⟨.continuous, (0, 10), none, some 2⟩)]
    edges := [⟨"X", "Y", "causes", 1/2, 1⟩]
    equations := []
    assumptions := [] }

/-- The lens of `mW` (its Kahn order is `X` then `Y`). -/
def lensW : Lens := ⟨mW, ["X", "Y"]⟩

/-- A model whose equations all carry zero-std noise, yet whose noise
means and domain bounds separate `simulate` from plain equation
evaluation: `X := 5` with noise `normal 1 0` (deterministic shift `+1`),
`Y := 20` with noise `normal 0 0` but domain `(0, 1)` (clipped). -/
def mC3 : CausalModel :=
  { id := "c"
    name := "C"
    «variables» :=
      [("X", ⟨.continuous, (0, 10), none, none⟩),
       ("Y", ⟨.continuous, (0, 1), none, none⟩)]
    edges := []
    equations := [("X", ⟨.lit 5, .normal 1 0⟩), ("Y", ⟨.lit 20, .normal 0 0⟩)]
    assumptions := [] }

/-- The lens of `mC3` (no edges, so the order is the declaration
order). -/
def lensC3 : Lens := ⟨mC3, ["X", "Y"]⟩

/-- An acyclic model with the edge `X → Y`, used by composition
witnesses. -/
def mA5 : CausalModel :=
  { id := "a"
    name := "A"
    «variables» :=
      [("X", ⟨.continuous, (0, 1), none, none⟩),
       ("Y", ⟨.continuous, (0, 1), none, none⟩)]
    edges := [⟨"X", "Y", "causes", 1/2, 1⟩]
    equations := []
    assumptions := ["a holds"] }

/-- An acyclic model with the reverse edge `Y → X`: composing it with
`mA5` introduces a two-vertex cycle. -/
def mB5 : CausalModel :=
  { id := "b"
    name := "B"
    «variables» :=
      [("X", ⟨.continuous, (0, 1), none, none⟩),
       ("Y", ⟨.continuous, (0, 1), none, none⟩)]
    edges := [⟨"Y", "X", "causes", 1/2, 1⟩]
    equations := []
    assumptions := ["b holds"] }

/-- A model sharing all its variable ids, its edge key and its equation
target with `mB6`, with the lower edge confidence (`0`). -/
def mA6 : CausalModel :=
  { id := "a"
    name := "A"
    «variables» :=
      [("X", ⟨.continuous, (0, 1), none, none⟩),
       ("Y", ⟨.continuous, (0, 1), none, none⟩)]
    edges := [⟨"X", "Y", "causes", 1, 0⟩]
    equations := [("Y", ⟨.lit 1, .normal 0 0⟩)]
    assumptions := ["a holds"] }

/-- The counterpart of `mA6` with the higher edge confidence (`1`). -/
def mB6 : CausalModel :=
  { id := "b"
    name := "B"
    «variables» :=
      [("X", ⟨.continuous, (0, 2), none, none⟩),
       ("Y", ⟨.continuous, (0, 2), none, none⟩)]
    edges := [⟨"X", "Y", "causes", 1, 1⟩]
    equations := [("Y", ⟨.lit 2, .normal 0 0⟩)]
    assumptions := ["b holds"] }

/-! ## Association-list lemmas -/

theorem lookupFst_isSome_iff_hasKey {α : Type} (l : List (String × α)) (k : String) :
    (lookupFst l k).isSome = hasKey l k := by
  induction l with
  | nil => rfl
  | cons p rest ih =>
      by_cases h : p.1 = k
      · simp [lookupFst, hasKey, h]
      · simp [lookupFst, hasKey, h] at ih ⊢
        simpa [hasKey] using ih

theorem lookupFst_append {α : Type} (l₁ l₂ : List (String × α)) (k : String) :
    lookupFst (l₁ ++ l₂) k =
      match lookupFst l₁ k with
      | some v => some v
      | none => lookupFst l₂ k := by
  induction l₁ with
  | nil => simp [lookupFst]
  | cons p rest ih =>
      by_cases h : p.1 = k <;> simp [lookupFst, h, ih]

theorem lookupFst_append_left {α : Type} {l₁ : List (String × α)} (l₂ : List (String × α))
    {k : String} (h : (lookupFst l₁ k).isSome) :
    lookupFst (l₁ ++ l₂) k = lookupFst l₁ k := by
  rw [lookupFst_append]
  cases hv : lookupFst l₁ k with
  | none => rw [hv] at h; simp at h
  | some v => simp

theorem lookupFst_mem {α : Type} {l : List (String × α)} {k : String} {v : α}
    (h : lookupFst l k = some v) : (k, v) ∈ l := by
  induction l with
  | nil => simp [lookupFst] at h
  | cons p rest ih =>
      rw [lookupFst] at h
      split at h
      · rename_i heq
        cases h
        cases p
        subst heq
        exact List.mem_cons_self _ _
      · exact List.mem_cons_of_mem _ (ih h)

/-! ## C4: expression-evaluation error handling -/

/-- Successful evaluation visits every identifier: a value can only come
back when every identifier of the expression is bound. -/
theorem evaluate_ok_allBound (ops : MathOps) (b : List (String × ℚ)) :
    ∀ a v, evaluate ops b a = .ok v → ∀ i ∈ identsOf a, (lookupFst b i).isSome := by
  intro a
  induction a with
  | lit q => intro v _ i hi; simp [identsOf] at hi
  | ident n =>
      intro v hv i hi
      simp [identsOf] at hi
      subst hi
      cases h : lookupFst b i with
      | none => rw [evaluate, h] at hv; cases hv
      | some w => simp
  | neg a ih =>
      intro v hv i hi
      rw [evaluate] at hv
      cases h : evaluate ops b a with
      | error e => rw [h] at hv; cases hv
      | ok x => exact ih x h i (by simpa [identsOf] using hi)
  | add a c iha ihc =>
      intro v hv i hi
      rw [evaluate] at hv
      cases ha : evaluate ops b a with
      | error e => rw [ha] at hv; cases hv
      | ok x =>
          rw [ha] at hv
          cases hc : evaluate ops b c with
          | error e => rw [hc] at hv; cases hv
          | ok y =>
              simp [identsOf] at hi
              rcases hi with hi | hi
              · exact iha x ha i hi
              · exact ihc y hc i hi
  | sub a c iha ihc =>
      intro v hv i hi
      rw [evaluate] at hv
      cases ha : evaluate ops b a with
      | error e => rw [ha] at hv; cases hv
      | ok x =>
          rw [ha] at hv
          cases hc : evaluate ops b c with
          | error e => rw [hc] at hv; cases hv
          | ok y =>
              simp [identsOf] at hi
              rcases hi with hi | hi
              · exact iha x ha i hi
              · exact ihc y hc i hi
  | mul a c iha ihc =>
      intro v hv i hi
      rw [evaluate] at hv
      cases ha : evaluate ops b a with
      | error e => rw [ha] at hv; cases hv
      | ok x =>
          rw [ha] at hv
          cases hc : evaluate ops b c with
          | error e => rw [hc] at hv; cases hv
          | ok y =>
              simp [identsOf] at hi
              rcases hi with hi | hi
              · exact iha x ha i hi
              · exact ihc y hc i hi
  | div a c iha ihc =>
      intro v hv i hi
      rw [evaluate] at hv
      cases ha : evaluate ops b a with
      | error e => rw [ha] at hv; cases hv
      | ok x =>
          rw [ha] at hv
          cases hc : evaluate ops b c with
          | error e => rw [hc] at hv; cases hv
          | ok y =>
              simp [identsOf] at hi
              rcases hi with hi | hi
              · exact iha x ha i hi
              · exact ihc y hc i hi
  | pow a c iha ihc =>
      intro v hv i hi
      rw [evaluate] at hv
      cases ha : evaluate ops b a with
      | error e => rw [ha] at hv; cases hv
      | ok x =>
          rw [ha] at hv
          cases hc : evaluate ops b c with
          | error e => rw [hc] at hv; cases hv
          | ok y =>
              simp [identsOf] at hi
              rcases hi with hi | hi
              · exact iha x ha i hi
              · exact ihc y hc i hi
  | call1 f a ih =>
      intro v hv i hi
      rw [evaluate] at hv
      cases ha : evaluate ops b a with
      | error e => rw [ha] at hv; cases hv
      | ok x => exact ih x ha i (by simpa [identsOf] using hi)
  | call2 f a c iha ihc =>
      intro v hv i hi
      rw [evaluate] at hv
      cases ha : evaluate ops b a with
      | error e => rw [ha] at hv; cases hv
      | ok x =>
          rw [ha] at hv
          cases hc : evaluate ops b c with
          | error e => rw [hc] at hv; cases hv
          | ok y =>
              simp [identsOf] at hi
              rcases hi with hi | hi
              · exact iha x ha i hi
              · exact ihc y hc i hi

/-- **C4.** For every expression AST and bindings map, `evaluate` fails
whenever the expression contains an identifier absent from the bindings
(success implies every identifier resolved — an unbound identifier is
never silently treated as zero — and an unresolved identifier is the
hard error `UnboundIdentifier`), and fails with a `DomainError` whenever
`log` is applied to a non-positive input or `sqrt` to a negative input,
rather than returning a value. -/
theorem C4_evaluate_error_handling (ops : MathOps) (b : List (String × ℚ)) :
    (∀ a v, evaluate ops b a = .ok v → ∀ i ∈ identsOf a, (lookupFst b i).isSome)
    ∧ (∀ a, (∃ i ∈ identsOf a, lookupFst b i = none) → ∃ e, evaluate ops b a = .error e)
    ∧ (∀ i, lookupFst b i = none → evaluate ops b (.ident i) = .error (.unbound i))
    ∧ (∀ a x, evaluate ops b a = .ok x → x ≤ 0 →
        evaluate ops b (.call1 .log a) = .error .logNonPositive)
    ∧ (∀ a x, evaluate ops b a = .ok x → x < 0 →
        evaluate ops b (.call1 .sqrt a) = .error .sqrtNegative) := by
  refine ⟨evaluate_ok_allBound ops b, ?_, ?_, ?_, ?_⟩
  · intro a ⟨i, hi, hnone⟩
    cases hv : evaluate ops b a with
    | error e => exact ⟨e, rfl⟩
    | ok v =>
        have := evaluate_ok_allBound ops b a v hv i hi
        rw [hnone] at this
        simp at this
  · intro i h
    rw [evaluate, h]
  · intro a x hx hle
    rw [evaluate, hx]
    simp [hle]
  · intro a x hx hlt
    rw [evaluate, hx]
    simp [hlt, not_le.mpr hlt, le_of_lt hlt]

/-- Witness for C4 at concrete inputs: an unbound identifier errors, and
`log (-1)`, `sqrt (-2)` are domain errors, under the identity
interpretation of the built-ins. -/
theorem C4_evaluate_error_handling_witness :
    evaluate opsId [] (.ident "x") = .error (.unbound "x")
    ∧ evaluate opsId [] (.call1 .log (.lit (-1))) = .error .logNonPositive
    ∧ evaluate opsId [] (.call1 .sqrt (.lit (-2))) = .error .sqrtNegative
    ∧ (∃ e, evaluate opsId [("y", 5)] (.add (.ident "y") (.ident "x")) = .error e) := by
  refine ⟨(C4_evaluate_error_handling opsId []).2.2.1 "x" rfl,
    (C4_evaluate_error_handling opsId []).2.2.2.1 (.lit (-1)) (-1) rfl (by norm_num),
    (C4_evaluate_error_handling opsId []).2.2.2.2 (.lit (-2)) (-2) rfl (by norm_num),
    (C4_evaluate_error_handling opsId [("y", 5)]).2.1 (.add (.ident "y") (.ident "x"))
      ⟨"x", by simp [identsOf], by simp [lookupFst]⟩⟩

/-! ## C1: validity is exactly the absence of error diagnostics -/

theorem errFreeB_append (a b : List Diagnostic) :
    errFreeB (a ++ b) = (errFreeB a && errFreeB b) := by
  simp [errFreeB, List.all_append]

theorem errFreeB_flatMap {α : Type} (l : List α) (f : α → List Diagnostic) :
    errFreeB (l.flatMap f) = l.all (fun x => errFreeB (f x)) := by
  induction l with
  | nil => rfl
  | cons x rest ih => simp [List.flatMap_cons, errFreeB_append, ih]

theorem errFreeB_if_err (c : Prop) [Decidable c] (code : DiagCode) :
    errFreeB (if c then [] else [derr code]) = decide c := by
  by_cases h : c <;> simp [errFreeB, derr, h]

theorem errFreeB_if_err' (c : Prop) [Decidable c] (code : DiagCode) :
    errFreeB (if c then [derr code] else []) = !(decide c) := by
  by_cases h : c <;> simp [errFreeB, derr, h]

theorem errFreeB_if_warn (c : Prop) [Decidable c] (code : DiagCode) :
    errFreeB (if c then [dwarn code] else []) = true := by
  by_cases h : c <;> simp [errFreeB, dwarn, h]

theorem errFreeB_if_warn' (c : Prop) [Decidable c] (code : DiagCode) :
    errFreeB (if c then [] else [dwarn code]) = true := by
  by_cases h : c <;> simp [errFreeB, dwarn, h]

theorem all_congr {α : Type} (l : List α) (f g : α → Bool)
    (h : ∀ x ∈ l, f x = g x) : l.all f = l.all g := by
  induction l with
  | nil => rfl
  | cons x rest ih =>
      simp only [List.all_cons]
      rw [h x (List.mem_cons_self x rest), ih (fun y hy => h y (List.mem_cons_of_mem x hy))]

theorem errFreeB_phase1 (d : RawDoc) : errFreeB (phase1 d) = p1b d := by
  simp [phase1, p1b, errFreeB_append, errFreeB_if_err, Bool.and_assoc]

theorem errFreeB_phase2 (d : RawDoc) : errFreeB (phase2 d) = p2b d := by
  cases hm : d.model with
  | none => simp [phase2, p2b, hm, errFreeB]
  | some m =>
      simp [phase2, p2b, hm, errFreeB_append, errFreeB_if_err, errFreeB_if_err']

theorem errFreeB_phase3 (d : RawDoc) : errFreeB (phase3 d) = p3b d := by
  cases hv : d.variables with
  | none => simp [phase3, p3b, hv, errFreeB]
  | some vs =>
      simp only [phase3, p3b, hv, errFreeB_flatMap]
      refine all_congr vs _ _ (fun p _ => ?_)
      simp [errFreeB_append, errFreeB_if_err, errFreeB_if_warn]

theorem errFreeB_phase4 (d : RawDoc) : errFreeB (phase4 d) = p4b d := by
  cases hv : d.variables with
  | none => simp [phase4, p4b, hv, errFreeB]
  | some vs =>
      cases he : d.edges with
      | none => simp [phase4, p4b, hv, he, errFreeB]
      | some es =>
          simp only [phase4, p4b, hv, he, errFreeB_flatMap, refOkB]
          refine all_congr es _ _ (fun e _ => ?_)
          simp [errFreeB_append, errFreeB_if_err]

theorem errFreeB_phase5 (d : RawDoc) : errFreeB (phase5 d) = p5b d := by
  cases he : d.edges with
  | none => simp [phase5, p5b, he, errFreeB]
  | some es =>
      simp only [phase5, p5b, he, errFreeB_flatMap]
      refine all_congr es _ _ (fun e _ => ?_)
      simp [errFreeB_append, errFreeB_if_err, errFreeB_if_err', Bool.and_assoc]

theorem errFreeB_phase6 (d : RawDoc) : errFreeB (phase6 d) = p6b d := by
  cases hv : d.variables with
  | none => simp [phase6, p6b, hv, errFreeB]
  | some vs =>
      cases he : d.edges with
      | none => simp [phase6, p6b, hv, he, errFreeB]
      | some es =>
          simp only [phase6, p6b, hv, he]
          by_cases hg : (p4b d && p5b d) = true
          · by_cases ha : acyclicB (vs.map (·.1)) es = true <;>
              simp [hg, ha, errFreeB, derr]
          · simp only [Bool.not_eq_true] at hg
            simp [hg, errFreeB]

theorem errFreeB_phase7 (d : RawDoc) : errFreeB (phase7 d) = p7b d := by
  cases hv : d.variables with
  | none => simp [phase7, p7b, hv, errFreeB]
  | some vs =>
      cases he : d.edges with
      | none => simp [phase7, p7b, hv, he, errFreeB]
      | some es =>
          simp only [phase7, p7b, hv, he, errFreeB_flatMap]
          refine all_congr d.equations _ _ (fun p _ => ?_)
          simp [errFreeB_append, errFreeB_if_err, errFreeB_flatMap]

theorem errFreeB_phase8 (d : RawDoc) : errFreeB (phase8 d) = true := by
  obtain ⟨ov, om, ovs, oes, eqs, oas⟩ := d
  cases om with
  | none =>
      cases oas <;> cases oes <;>
        simp [phase8, errFreeB_append, errFreeB_flatMap, errFreeB_if_warn', errFreeB, dwarn]
  | some m =>
      obtain ⟨mid, mname, mdom⟩ := m
      cases mdom <;> cases oas <;> cases oes <;>
        simp [phase8, errFreeB_append, errFreeB_flatMap, errFreeB_if_warn', errFreeB, dwarn]

theorem errFreeB_allDiags (d : RawDoc) : errFreeB (allDiags d) = structOk d := by
  simp only [allDiags, errFreeB_append, errFreeB_phase1, errFreeB_phase2,
    errFreeB_phase3, errFreeB_phase4, errFreeB_phase5, errFreeB_phase6,
    errFreeB_phase7, errFreeB_phase8, structOk, Bool.and_true, Bool.and_assoc]

/-- **C1.** `validate` returns a constructed `CausalModel` (the document
is valid) if and only if the pipeline produced no error-severity
diagnostic; warning-severity diagnostics never block construction. -/
theorem C1_valid_iff_no_error_diagnostic (d : RawDoc) :
    (∃ m, (validate d).1 = some m) ↔ ∀ g ∈ (validate d).2, g.sev ≠ Severity.error := by
  have hkey : errFreeB (allDiags d) = structOk d := errFreeB_allDiags d
  simp only [validate]
  constructor
  · rintro ⟨m, hm⟩
    intro g hg
    have hso : structOk d = true := by
      by_contra hne
      simp only [Bool.not_eq_true] at hne
      simp [hne] at hm
    have hfree : errFreeB (allDiags d) = true := hkey.symm ▸ hso
    have hall := List.all_eq_true.mp hfree g hg
    intro hcontra
    rw [hcontra] at hall
    simp at hall
  · intro h
    have hfree : errFreeB (allDiags d) = true := by
      refine List.all_eq_true.mpr (fun g hg => ?_)
      have := h g hg
      cases hsev : g.sev with
      | error => exact absurd hsev this
      | warning => simp [hsev]
    have hso : structOk d = true := hkey.symm.trans hfree
    exact ⟨buildModel d, by simp [hso]⟩

/-! ## Kahn's algorithm: permutation and topological correctness -/

theorem kahnAux_subset (edges : List Edge) :
    ∀ fuel remaining, ∀ x ∈ kahnAux edges fuel remaining, x ∈ remaining := by
  intro fuel
  induction fuel with
  | zero => intro remaining x hx; simp [kahnAux] at hx
  | succ n ih =>
      intro remaining x hx
      rw [kahnAux] at hx
      cases hf : remaining.find? (noIncoming edges remaining) with
      | none => rw [hf] at hx; simp at hx
      | some v =>
          rw [hf] at hx
          rcases List.mem_cons.mp hx with h | h
          · exact h ▸ List.mem_of_find?_eq_some hf
          · exact List.mem_of_mem_erase (ih _ x h)

theorem kahnAux_nodup (edges : List Edge) :
    ∀ fuel remaining, remaining.Nodup → (kahnAux edges fuel remaining).Nodup := by
  intro fuel
  induction fuel with
  | zero => intro remaining _; simp [kahnAux]
  | succ n ih =>
      intro remaining hnd
      rw [kahnAux]
      cases hf : remaining.find? (noIncoming edges remaining) with
      | none => simp
      | some v =>
          refine List.nodup_cons.mpr ⟨?_, ih _ (hnd.erase v)⟩
          intro hv
          exact hnd.not_mem_erase (kahnAux_subset edges n _ v hv)

theorem kahnAux_perm (edges : List Edge) (fuel : Nat) (remaining : List String)
    (hnd : remaining.Nodup)
    (hlen : (kahnAux edges fuel remaining).length = remaining.length) :
    (kahnAux edges fuel remaining).Perm remaining := by
  have hsub : (kahnAux edges fuel remaining) ⊆ remaining :=
    fun x hx => kahnAux_subset edges fuel remaining x hx
  have hout : (kahnAux edges fuel remaining).Nodup := kahnAux_nodup edges fuel remaining hnd
  exact (hout.subperm hsub).perm_of_length_le (le_of_eq hlen.symm)

theorem kahnAux_topo (edges : List Edge) :
    ∀ fuel remaining, remaining.Nodup →
    (kahnAux edges fuel remaining).length = remaining.length →
    ∀ e ∈ edges, e.source ∈ remaining →
    ∀ pre post, kahnAux edges fuel remaining = pre ++ e.target :: post →
    e.source ∈ pre := by
  intro fuel
  induction fuel with
  | zero =>
      intro remaining _ hlen e _ hsrc pre post heq
      rw [kahnAux] at heq
      exact absurd heq.symm (List.append_ne_nil_of_right_ne_nil pre (List.cons_ne_nil _ _))
  | succ n ih =>
      intro remaining hnd hlen e he hsrc pre post heq
      rw [kahnAux] at heq hlen
      cases hf : remaining.find? (noIncoming edges remaining) with
      | none =>
          rw [hf] at heq
          exact absurd heq.symm (List.append_ne_nil_of_right_ne_nil pre (List.cons_ne_nil _ _))
      | some v =>
          rw [hf] at heq hlen
          have hvmem : v ∈ remaining := List.mem_of_find?_eq_some hf
          have hP : noIncoming edges remaining v = true := List.find?_some hf
          have hlen' : (kahnAux edges n (remaining.erase v)).length =
              (remaining.erase v).length := by
            rw [List.length_erase_of_mem hvmem]
            have : remaining.length = (kahnAux edges n (remaining.erase v)).length + 1 := by
              simpa using hlen.symm
            omega
          cases pre with
          | nil =>
              simp only [List.nil_append] at heq
              have hveq : v = e.target := (List.cons.injEq _ _ _ _).mp heq |>.1
              exfalso
              simp only [noIncoming, Bool.not_eq_true', List.any_eq_false] at hP
              have := hP e he
              simp only [Bool.and_eq_true, beq_iff_eq] at this
              exact this ⟨hveq.symm, List.elem_eq_true_of_mem hsrc⟩
          | cons p pre' =>
              simp only [List.cons_append] at heq
              obtain ⟨hpv, hrest⟩ := (List.cons.injEq _ _ _ _).mp heq
              by_cases hsv : e.source = v
              · exact hpv ▸ hsv ▸ List.mem_cons_self _ _
              · have hsrc' : e.source ∈ remaining.erase v :=
                  (List.mem_erase_of_ne hsv).mpr hsrc
                exact List.mem_cons_of_mem _
                  (ih (remaining.erase v) (hnd.erase v) hlen' e he hsrc' pre' post hrest)

/-- Every edge whose source is a declared variable has its source listed
strictly before its target in a fully-consumed topological order. -/
theorem topoOrder_respects_edges (vars : List String) (edges : List Edge)
    (hnd : vars.Nodup) (hlen : (topoOrder vars edges).length = vars.length)
    (e : Edge) (he : e ∈ edges) (hsrc : e.source ∈ vars)
    (pre post : List String) (heq : topoOrder vars edges = pre ++ e.target :: post) :
    e.source ∈ pre :=
  kahnAux_topo edges vars.length vars hnd hlen e he hsrc pre post heq

theorem topoOrder_perm (vars : List String) (edges : List Edge)
    (hnd : vars.Nodup) (hlen : (topoOrder vars edges).length = vars.length) :
    (topoOrder vars edges).Perm vars :=
  kahnAux_perm edges vars.length vars hnd hlen

/-! ## Sample walks: basic structure -/

theorem lookupFst_nil {α : Type} (k : String) : lookupFst ([] : List (String × α)) k = none := rfl

theorem hasKey_iff_mem_keys {α : Type} (l : List (String × α)) (k : String) :
    hasKey l k = true ↔ k ∈ l.map (·.1) := by
  simp [hasKey, List.any_eq_true, List.mem_map]

theorem lookupFst_mapF {α β : Type} (l : List (String × α)) (F : String → β) (k : String) :
    lookupFst (l.map (fun p => (p.1, F p.1))) k =
      if hasKey l k then some (F k) else none := by
  induction l with
  | nil => simp [lookupFst, hasKey]
  | cons p rest ih =>
      by_cases h : p.1 = k
      · simp [lookupFst, hasKey, h]
      · simp [lookupFst, hasKey, h, ih, List.any_cons]
        rw [decide_eq_false h, Bool.false_or]

theorem walkAux_extends (ops : MathOps) (m : CausalModel) (iv : List (String × ℚ))
    (z : String → ℚ) :
    ∀ order env0 env, walkAux ops m iv z order env0 = .ok env →
    ∃ ext, env = env0 ++ ext := by
  intro order
  induction order with
  | nil =>
      intro env0 env hw
      rw [walkAux] at hw
      cases hw
      exact ⟨[], by simp⟩
  | cons v rest ih =>
      intro env0 env hw
      rw [walkAux] at hw
      cases hs : stepVal ops m iv z env0 v with
      | error e => rw [hs] at hw; cases hw
      | ok x =>
          rw [hs] at hw
          obtain ⟨ext, hext⟩ := ih (env0 ++ [(v, x)]) env hw
          exact ⟨(v, x) :: ext, by simpa using hext⟩

theorem walk_pinned (ops : MathOps) (m : CausalModel) (iv : List (String × ℚ))
    (z : String → ℚ) (k : String) (v : ℚ) (hpin : lookupFst iv k = some v) :
    ∀ order env0 env, walkAux ops m iv z order env0 = .ok env →
    k ∈ order → lookupFst env0 k = none → lookupFst env k = some v := by
  intro order
  induction order with
  | nil => intro env0 env _ hmem; simp at hmem
  | cons v₁ rest ih =>
      intro env0 env hw hmem h0
      rw [walkAux] at hw
      cases hs : stepVal ops m iv z env0 v₁ with
      | error e => rw [hs] at hw; cases hw
      | ok x =>
          rw [hs] at hw
          by_cases hk : v₁ = k
          · have hxv : x = v := by
              rw [stepVal, hk, hpin] at hs
              cases hs
              rfl
            obtain ⟨ext, hext⟩ := walkAux_extends ops m iv z rest (env0 ++ [(v₁, x)]) env hw
            subst hext
            have h1 : lookupFst (env0 ++ [(v₁, x)]) k = some v := by
              simp [lookupFst_append, h0, lookupFst, hk, hxv]
            rw [lookupFst_append_left ext (by rw [h1]; rfl), h1]
          · have hmem' : k ∈ rest := by
              rcases List.mem_cons.mp hmem with h | h
              · exact absurd h.symm hk
              · exact h
            refine ih (env0 ++ [(v₁, x)]) env hw hmem' ?_
            rw [lookupFst_append, h0]
            simp [lookupFst, hk]

/-! ## C2: the do-operator pins intervened variables -/

/-- **C2.** For every model whose lens was built, every intervention map
over declared variables and every `n ≥ 1`: each variable appearing as a
key of the intervention map receives the estimate
`mean = intervention value, std = 0` (variance 0), independent of `n`,
and within every successful sample walk the variable's computed value is
the pinned value, regardless of its equation or incoming edges. -/
theorem C2_intervention_pinned (ops : MathOps) (m : CausalModel) (lens : Lens)
    (iv : List (String × ℚ)) (n : Nat) (z : Nat → String → ℚ) (k : String) (v : ℚ)
    (hlens : applyLens m = .ok lens)
    (hnd : (m.variables.map (·.1)).Nodup)
    (hkeys : ∀ p ∈ iv, hasKey m.variables p.1 = true)
    (hn : 1 ≤ n)
    (hkv : lookupFst iv k = some v) :
    ∃ out, simulate ops lens iv n z = .ok out
      ∧ lookupFst out k = some (.defined ⟨v, 0, n⟩)
      ∧ ∀ i env, walkSample ops lens iv (z i) = .ok env → lookupFst env k = some v := by
  have hmodel : lens.model = m ∧
      lens.order = topoOrder (m.variables.map (·.1)) m.edges ∧
      (topoOrder (m.variables.map (·.1)) m.edges).length =
        (m.variables.map (·.1)).length := by
    rw [applyLens] at hlens
    split at hlens
    · rename_i hlen
      cases hlens
      exact ⟨rfl, rfl, hlen⟩
    · cases hlens
  obtain ⟨hm, hord, hlen⟩ := hmodel
  have hkmem : hasKey m.variables k = true := by
    have := lookupFst_mem hkv
    exact hkeys (k, v) this
  have hfind : iv.find? (fun p => !(hasKey lens.model.variables p.1)) = none := by
    rw [List.find?_eq_none]
    intro p hp
    rw [hm, hkeys p hp]
    simp
  have hsim : simulate ops lens iv n z =
      .ok (m.variables.map (fun p => (p.1, aggregateVar ops lens iv n z p.1))) := by
    rw [simulate, hfind, hm]
  refine ⟨_, hsim, ?_, ?_⟩
  · rw [lookupFst_mapF m.variables (aggregateVar ops lens iv n z) k, if_pos hkmem,
      aggregateVar, hkv]
  · intro i env hw
    rw [walkSample, hm, hord] at hw
    have hkord : k ∈ topoOrder (m.variables.map (·.1)) m.edges := by
      have hperm := topoOrder_perm (m.variables.map (·.1)) m.edges hnd hlen
      exact hperm.mem_iff.mpr ((hasKey_iff_mem_keys m.variables k).mp hkmem)
    exact walk_pinned ops m iv (z i) k v hkv _ [] env hw hkord rfl

/-- Witness for C2 at a concrete model: intervening `Y := 5` over three
samples yields the estimate `mean 5, variance 0, count 3`, and every
sample walk carries `Y = 5`. -/
theorem C2_intervention_pinned_witness :
    ∃ out, simulate opsId lensW [("Y", 5)] 3 (fun _ _ => 0) = .ok out
      ∧ lookupFst out "Y" = some (.defined ⟨5, 0, 3⟩)
      ∧ ∀ (i : Nat) (env : List (String × ℚ)),
          walkSample opsId lensW [("Y", 5)] ((fun (_ : Nat) (_ : String) => (0 : ℚ)) i) = .ok env →
          lookupFst env "Y" = some 5 :=
  C2_intervention_pinned opsId mW lensW [("Y", 5)] 3 (fun _ _ => 0) "Y" 5
    rfl (by decide) (by decide) (by decide) rfl

/-! ## C3 infrastructure: walk characterization and lookup stability -/

theorem Dist.draw_stdZero (d : Dist) (hd : d.stdZero = true) (zz : ℚ) :
    d.draw zz = d.detValue := by
  cases d with
  | normal m s =>
      simp only [Dist.stdZero, decide_eq_true_eq] at hd
      simp [Dist.draw, Dist.detValue, hd]
  | uniform a b =>
      simp only [Dist.stdZero, decide_eq_true_eq] at hd
      simp [Dist.draw, Dist.detValue, hd]

theorem walkAux_char (ops : MathOps) (m : CausalModel) (iv : List (String × ℚ))
    (z : String → ℚ) :
    ∀ order env0 env, walkAux ops m iv z order env0 = .ok env →
    ∃ ext, env = env0 ++ ext ∧ ext.map Prod.fst = order ∧
      ∀ pre v post, order = pre ++ v :: post →
        ∃ x, ext.get? pre.length = some (v, x) ∧
          stepVal ops m iv z (env0 ++ ext.take pre.length) v = .ok x := by
  intro order
  induction order with
  | nil =>
      intro env0 env hw
      rw [walkAux] at hw
      cases hw
      refine ⟨[], by simp, rfl, ?_⟩
      intro pre v post heq
      exact absurd heq.symm (List.append_ne_nil_of_right_ne_nil pre (List.cons_ne_nil _ _))
  | cons v₁ rest ih =>
      intro env0 env hw
      rw [walkAux] at hw
      cases hs : stepVal ops m iv z env0 v₁ with
      | error e => rw [hs] at hw; cases hw
      | ok x =>
          rw [hs] at hw
          obtain ⟨ext', henv, hkeys, hchar⟩ := ih (env0 ++ [(v₁, x)]) env hw
          refine ⟨(v₁, x) :: ext', by simpa using henv, by simpa using hkeys, ?_⟩
          intro pre v post heq
          cases pre with
          | nil =>
              simp only [List.nil_append] at heq
              obtain ⟨hv, hpost⟩ := (List.cons.injEq _ _ _ _).mp heq
              subst hv
              exact ⟨x, by simp, by simpa using hs⟩
          | cons q pre' =>
              simp only [List.cons_append] at heq
              obtain ⟨hq, hrest⟩ := (List.cons.injEq _ _ _ _).mp heq
              obtain ⟨x', hget, hstep⟩ := hchar pre' v post hrest
              refine ⟨x', by simpa using hget, ?_⟩
              simp only [List.length_cons, List.take_succ_cons]
              rw [show env0 ++ (v₁, x) :: ext'.take pre'.length =
                (env0 ++ [(v₁, x)]) ++ ext'.take pre'.length by simp]
              exact hstep

theorem lookupFst_of_get? {α : Type} :
    ∀ (l : List (String × α)) (i : Nat) (k : String) (x : α),
    (l.map Prod.fst).Nodup → l.get? i = some (k, x) → lookupFst l k = some x := by
  intro l
  induction l with
  | nil => intro i k x _ hg; simp at hg
  | cons p rest ih =>
      intro i k x hnd hg
      cases i with
      | zero =>
          rw [List.get?_cons_zero] at hg
          cases hg
          simp [lookupFst]
      | succ j =>
          rw [List.get?_cons_succ] at hg
          have hkmem : k ∈ rest.map Prod.fst :=
            List.mem_map.mpr ⟨(k, x), List.get?_mem hg, rfl⟩
          have hne : ¬p.1 = k := by
            intro hpk
            rw [List.map_cons, List.nodup_cons] at hnd
            exact hnd.1 (hpk ▸ hkmem)
          rw [lookupFst, if_neg hne]
          exact ih j k x (by rw [List.map_cons, List.nodup_cons] at hnd; exact hnd.2) hg

theorem lookupFst_take_of_mem {α : Type} (l : List (String × α)) (n : Nat) (k : String)
    (hmem : k ∈ (l.take n).map Prod.fst) : lookupFst l k = lookupFst (l.take n) k := by
  have hs : (lookupFst (l.take n) k).isSome = true := by
    rw [lookupFst_isSome_iff_hasKey]
    exact (hasKey_iff_mem_keys _ k).mpr hmem
  conv_lhs => rw [← List.take_append_drop n l]
  exact lookupFst_append_left _ hs

/-- The value of each variable in a successful sample walk from the empty
environment: its stored value is the step value computed from the strict
prefix of the environment. -/
theorem walk_value (ops : MathOps) (m : CausalModel) (iv : List (String × ℚ))
    (z : String → ℚ) (order : List String) (env : List (String × ℚ))
    (hnd : order.Nodup) (hw : walkAux ops m iv z order [] = .ok env)
    (pre : List String) (v : String) (post : List String)
    (heq : order = pre ++ v :: post) :
    env.map Prod.fst = order ∧
    ∃ x, lookupFst env v = some x ∧
      stepVal ops m iv z (env.take pre.length) v = .ok x := by
  obtain ⟨ext, henv, hkeys, hchar⟩ := walkAux_char ops m iv z order [] env hw
  simp only [List.nil_append] at henv
  subst henv
  obtain ⟨x, hget, hstep⟩ := hchar pre v post heq
  refine ⟨hkeys, x, ?_, by simpa using hstep⟩
  exact lookupFst_of_get? env pre.length v x (by rw [hkeys]; exact hnd) hget

theorem applyLens_ok {m : CausalModel} {lens : Lens} (h : applyLens m = .ok lens) :
    lens.model = m ∧ lens.order = topoOrder (m.variables.map (·.1)) m.edges ∧
    (topoOrder (m.variables.map (·.1)) m.edges).length =
      (m.variables.map (·.1)).length := by
  rw [applyLens] at h
  split at h
  · rename_i hlen
    cases h
    exact ⟨rfl, rfl, hlen⟩
  · cases h

theorem meanL_single (a : ℚ) : meanL [a] = a := by
  simp [meanL]

theorem varianceL_single (a : ℚ) : varianceL [a] = 0 := by
  simp [varianceL, meanL]

/-- **C3 (amended).** With `n_samples = 1` and every noise standard
deviation zero, the reported mean of a non-intervened endogenous
variable is the domain-clipped sum of the direct evaluation of its
equation against its parents' already-computed values and the (now
deterministic) noise value — the normal's mean or the degenerate
uniform's endpoint; a variable without an equation but with incoming
edges reports the domain-clipped fallback linear combination.  When the
noise is centred at zero and the value lies inside the domain this is
exactly the direct evaluation. -/
theorem C3_zero_noise_mean (ops : MathOps) (m : CausalModel) (lens : Lens)
    (iv : List (String × ℚ)) (z : Nat → String → ℚ)
    (hlens : applyLens m = .ok lens)
    (hnd : (m.variables.map (·.1)).Nodup)
    (href : refOkB m.variables m.edges = true)
    (hkeys : ∀ p ∈ iv, hasKey m.variables p.1 = true)
    (hstd : ∀ p ∈ m.equations, p.2.dist.stdZero = true)
    (env : List (String × ℚ))
    (hw : walkSample ops lens iv (z 0) = .ok env)
    (v : String) (hiv : lookupFst iv v = none) (hvmem : hasKey m.variables v = true) :
    ∃ out, simulate ops lens iv 1 z = .ok out
      ∧ (∀ sq, lookupFst m.equations v = some sq →
          ∃ x, evaluate ops (parentBindings m env v) sq.expr = .ok x ∧
            lookupFst out v =
              some (.defined ⟨clip (domainOf m v) (x + sq.dist.detValue), 0, 1⟩))
      ∧ (lookupFst m.equations v = none → (incomingEdges m.edges v).isEmpty = false →
          lookupFst out v =
            some (.defined ⟨clip (domainOf m v) (fallbackSum m env v), 0, 1⟩)) := by
  obtain ⟨hm, hord, hlen⟩ := applyLens_ok hlens
  have hw0 := hw
  rw [walkSample, hm, hord] at hw
  have hfind : iv.find? (fun p => !(hasKey lens.model.variables p.1)) = none := by
    rw [List.find?_eq_none]
    intro p hp
    rw [hm, hkeys p hp]
    simp
  have hsim : simulate ops lens iv 1 z =
      .ok (m.variables.map (fun p => (p.1, aggregateVar ops lens iv 1 z p.1))) := by
    rw [simulate, hfind, hm]
  have hperm := topoOrder_perm (m.variables.map (·.1)) m.edges hnd hlen
  have hordnd : (topoOrder (m.variables.map (·.1)) m.edges).Nodup :=
    hperm.nodup_iff.mpr hnd
  have hvord : v ∈ topoOrder (m.variables.map (·.1)) m.edges :=
    hperm.mem_iff.mpr ((hasKey_iff_mem_keys m.variables v).mp hvmem)
  obtain ⟨pre, post, heq⟩ := List.append_of_mem hvord
  obtain ⟨henvkeys, val, hlook, hstep⟩ :=
    walk_value ops m iv (z 0) _ env hordnd hw pre v post heq
  -- parent lookups are stable between the step-time prefix and the
  -- final environment, because every parent is ordered before `v`
  have hstable : ∀ e ∈ incomingEdges m.edges v,
      lookupD (env.take pre.length) e.source = lookupD env e.source := by
    intro e he
    have hfil := List.mem_filter.mp he
    have hemem : e ∈ m.edges := hfil.1
    have hetv : e.target = v := by simpa using hfil.2
    have hsrcvars : e.source ∈ m.variables.map (·.1) := by
      have hre := List.all_eq_true.mp href e hemem
      rw [Bool.and_eq_true] at hre
      exact (hasKey_iff_mem_keys m.variables e.source).mp hre.1
    have hpre : e.source ∈ pre :=
      topoOrder_respects_edges (m.variables.map (·.1)) m.edges hnd hlen e hemem
        hsrcvars pre post (by rw [heq, hetv])
    have hpremap : e.source ∈ (env.take pre.length).map Prod.fst := by
      rw [List.map_take, henvkeys, heq, List.take_left]
      exact hpre
    rw [lookupD, lookupD, lookupFst_take_of_mem env pre.length e.source hpremap]
  have hpb : parentBindings m (env.take pre.length) v = parentBindings m env v := by
    rw [parentBindings, parentBindings, parentsOf]
    rw [List.map_map, List.map_map]
    refine List.map_congr_left (fun e he => ?_)
    simp only [Function.comp]
    rw [hstable e he]
  have hfb : fallbackSum m (env.take pre.length) v = fallbackSum m env v := by
    rw [fallbackSum, fallbackSum]
    congr 1
    refine List.map_congr_left (fun e he => ?_)
    rw [hstable e he]
  have hvalid : validSamples ops lens iv 1 z = [env] := by
    rw [validSamples]
    simp [List.range_succ, hw0]
  have hagg : aggregateVar ops lens iv 1 z v =
      .defined ⟨val, 0, 1⟩ := by
    rw [aggregateVar, hiv, hvalid]
    simp [List.filterMap_cons, hlook, meanL_single, varianceL_single]
  have hout : lookupFst (m.variables.map (fun p => (p.1, aggregateVar ops lens iv 1 z p.1))) v
      = some (.defined ⟨val, 0, 1⟩) := by
    rw [lookupFst_mapF m.variables (aggregateVar ops lens iv 1 z) v, if_pos hvmem, hagg]
  refine ⟨_, hsim, ?_, ?_⟩
  · intro sq hsq
    simp only [stepVal, hiv, hsq] at hstep
    cases heval : evaluate ops (parentBindings m (env.take pre.length) v) sq.expr with
    | error e => simp only [heval] at hstep; cases hstep
    | ok x =>
        simp only [heval, Except.ok.injEq] at hstep
        have hdz : sq.dist.draw (z 0 v) = sq.dist.detValue :=
          Dist.draw_stdZero sq.dist (hstd (v, sq) (lookupFst_mem hsq)) (z 0 v)
        refine ⟨x, by rw [← hpb]; exact heval, ?_⟩
        rw [hout, ← hstep, hdz]
  · intro hnone hinc
    simp only [stepVal, hiv, hnone, hinc, Bool.false_eq_true, if_false,
      Except.ok.injEq] at hstep
    rw [hout, ← hstep, hfb]

/-- Unfolding lemma for literals, convenient for `simp`. -/
theorem evaluate_lit (ops : MathOps) (b : List (String × ℚ)) (q : ℚ) :
    evaluate ops b (.lit q) = .ok q := rfl

theorem mC3_walk :
    walkSample opsId lensC3 [] (fun _ => 0) = .ok [("X", 6), ("Y", 1)] := by
  have hX : stepVal opsId mC3 [] (fun _ => 0) [] "X" = .ok 6 := by
    simp [stepVal, lookupFst, mC3, parentBindings, parentsOf, incomingEdges,
      evaluate_lit, domainOf, clip, Dist.draw, min_def, max_def] <;> norm_num
  have hY : stepVal opsId mC3 [] (fun _ => 0) [("X", 6)] "Y" = .ok 1 := by
    simp [stepVal, lookupFst, mC3, parentBindings, parentsOf, incomingEdges,
      evaluate_lit, domainOf, clip, Dist.draw, min_def, max_def] <;> norm_num
  simp [walkSample, walkAux, lensC3, hX, hY]

theorem mC3_simulate :
    simulate opsId lensC3 [] 1 (fun _ _ => 0) =
      .ok [("X", .defined ⟨6, 0, 1⟩), ("Y", .defined ⟨1, 0, 1⟩)] := by
  have hvalid : validSamples opsId lensC3 [] 1 (fun _ _ => 0) = [[("X", 6), ("Y", 1)]] := by
    simp [validSamples, List.range_succ, mC3_walk]
  have haggX : aggregateVar opsId lensC3 [] 1 (fun _ _ => 0) "X" = .defined ⟨6, 0, 1⟩ := by
    simp [aggregateVar, lookupFst, hvalid, meanL_single, varianceL_single]
  have haggY : aggregateVar opsId lensC3 [] 1 (fun _ _ => 0) "Y" = .defined ⟨1, 0, 1⟩ := by
    simp [aggregateVar, lookupFst, hvalid, meanL_single, varianceL_single]
  have hlm : lensC3.model = mC3 := rfl
  simp [simulate, hlm, mC3, haggX, haggY]

/-- Counterexample to C3 as stated: in `mC3` every noise standard
deviation is zero and `n_samples = 1`, yet `X`'s reported mean is `6`
while direct evaluation of its equation gives `5` (the zero-std normal
noise still contributes its mean, `1`), and `Y`'s reported mean is `1`
while direct evaluation gives `20` (the value is clipped to the domain
`(0, 1)`) — so "equals the direct deterministic evaluation, with exact
equality" fails. -/
theorem C3_counterexample :
    (∀ p ∈ mC3.equations, p.2.dist.stdZero = true)
    ∧ simulate opsId lensC3 [] 1 (fun _ _ => 0) =
        .ok [("X", .defined ⟨6, 0, 1⟩), ("Y", .defined ⟨1, 0, 1⟩)]
    ∧ evaluate opsId (parentBindings mC3 [] "X") (Expr.lit 5) = .ok 5
    ∧ evaluate opsId (parentBindings mC3 [] "Y") (Expr.lit 20) = .ok 20
    ∧ (6 : ℚ) ≠ 5 ∧ (1 : ℚ) ≠ 20 := by
  exact ⟨by decide, mC3_simulate, rfl, rfl, by norm_num, by norm_num⟩

/-- Witness for the amended C3 at `mC3`: the single-sample simulation
reports exactly the clipped noise-shifted evaluations. -/
theorem C3_zero_noise_mean_witness :
    ∃ out, simulate opsId lensC3 [] 1 (fun _ _ => 0) = .ok out
      ∧ (∀ sq, lookupFst mC3.equations "X" = some sq →
          ∃ x, evaluate opsId (parentBindings mC3 [("X", 6), ("Y", 1)] "X") sq.expr = .ok x ∧
            lookupFst out "X" =
              some (.defined ⟨clip (domainOf mC3 "X") (x + sq.dist.detValue), 0, 1⟩))
      ∧ (lookupFst mC3.equations "X" = none → (incomingEdges mC3.edges "X").isEmpty = false →
          lookupFst out "X" =
            some (.defined ⟨clip (domainOf mC3 "X") (fallbackSum mC3 [("X", 6), ("Y", 1)] "X"), 0, 1⟩)) :=
  C3_zero_noise_mean opsId mC3 lensC3 [] (fun _ _ => 0) rfl (by decide) (by decide)
    (by decide) (by decide) [("X", 6), ("Y", 1)] mC3_walk "X" rfl (by decide)

/-! ## C5: composition re-validates and is atomic on error -/

theorem hasKey_cons {α : Type} (p : String × α) (l : List (String × α)) (k : String) :
    hasKey (p :: l) k = (decide (p.1 = k) || hasKey l k) := by
  simp [hasKey, List.any_cons]

theorem mem_foldl_mergeEdgeAcc :
    ∀ (l acc : List Edge) (x : Edge), x ∈ l.foldl mergeEdgeAcc acc → x ∈ acc ∨ x ∈ l := by
  intro l
  induction l with
  | nil => intro acc x hx; exact Or.inl hx
  | cons e rest ih =>
      intro acc x hx
      rcases ih (mergeEdgeAcc acc e) x hx with h | h
      · rw [mergeEdgeAcc] at h
        split at h
        · rcases List.mem_map.mp h with ⟨f, hf, hgf⟩
          by_cases hc : (f.source == e.source && f.target == e.target
              && decide (f.confidence < e.confidence)) = true
          · rw [if_pos hc] at hgf
            exact Or.inr (hgf ▸ List.mem_cons_self _ _)
          · rw [if_neg hc] at hgf
            exact Or.inl (hgf ▸ hf)
        · rcases List.mem_append.mp h with h | h
          · exact Or.inl h
          · simp only [List.mem_singleton] at h
            exact Or.inr (h ▸ List.mem_cons_self _ _)
      · exact Or.inr (List.mem_cons_of_mem _ h)

theorem hasKey_foldl_mergeKeyedAcc {α : Type} :
    ∀ (l acc : List (String × α)) (k : String),
    hasKey (l.foldl mergeKeyedAcc acc) k = (hasKey acc k || hasKey l k) := by
  intro l
  induction l with
  | nil => intro acc k; simp [hasKey]
  | cons p rest ih =>
      intro acc k
      rw [List.foldl_cons, ih, hasKey_cons]
      rw [mergeKeyedAcc]
      split
      · rename_i hin
        by_cases hpk : p.1 = k
        · have : hasKey acc k = true := hpk ▸ hin
          simp [this]
        · simp [hpk]
      · rw [show hasKey (acc ++ [p]) k = (hasKey acc k || decide (p.1 = k)) by
          simp [hasKey, List.any_append, List.any_cons]]
        cases hacc : hasKey acc k <;> cases hpk : decide (p.1 = k) <;> simp

theorem refOkB_merged (ms : List CausalModel)
    (hwf : ∀ m ∈ ms, refOkB m.variables m.edges = true) :
    refOkB (mergeVars ms) (mergeEdges ms) = true := by
  rw [refOkB, List.all_eq_true]
  intro e he
  rcases mem_foldl_mergeEdgeAcc _ [] e he with h | h
  · cases h
  · obtain ⟨m, hm, hem⟩ := List.mem_flatMap.mp h
    have := List.all_eq_true.mp (hwf m hm) e hem
    rw [Bool.and_eq_true] at this
    have hkeysflat : ∀ k, hasKey m.variables k = true →
        hasKey (mergeVars ms) k = true := by
      intro k hk
      rw [mergeVars, hasKey_foldl_mergeKeyedAcc, Bool.or_eq_true]
      refine Or.inr ?_
      rw [hasKey_iff_mem_keys] at hk ⊢
      rcases List.mem_map.mp hk with ⟨p, hp, hpk⟩
      exact List.mem_map.mpr ⟨p, List.mem_flatMap.mpr ⟨m, hm, hp⟩, hpk⟩
    rw [Bool.and_eq_true]
    exact ⟨hkeysflat e.source this.1, hkeysflat e.target this.2⟩

/-- **C5.** `compose` re-runs referential integrity and cycle detection
on the merged graph: for validated inputs the referential phase passes;
whenever the merged edge set is cyclic, `compose` fails with
`CompositionError(CycleIntroduced, path)` and returns no model at all;
and a returned model is exactly the full merge of a graph that passed
the acyclicity re-check — no partial merge is ever returned. -/
theorem C5_compose_atomic_cycle (ms : List CausalModel)
    (hwf : ∀ m ∈ ms, refOkB m.variables m.edges = true) :
    refOkB (mergeVars ms) (mergeEdges ms) = true
    ∧ (acyclicB ((mergeVars ms).map (·.1)) (mergeEdges ms) = false →
        compose ms = .error (.cycleIntroduced
          (leftoverOf ((mergeVars ms).map (·.1)) (mergeEdges ms)))
        ∧ ∀ cm, compose ms ≠ .ok cm)
    ∧ (∀ cm, compose ms = .ok cm →
        acyclicB ((mergeVars ms).map (·.1)) (mergeEdges ms) = true
        ∧ cm = ⟨"composed", "Composed Model", mergeVars ms, mergeEdges ms,
            mergeEqs ms, mergeAssumptions ms⟩) := by
  have href := refOkB_merged ms hwf
  have hfind : findRefViolation (mergeVars ms) (mergeEdges ms) = none := by
    rw [findRefViolation, List.find?_eq_none]
    intro e he
    have := List.all_eq_true.mp href e he
    simp [this]
  refine ⟨href, ?_, ?_⟩
  · intro hacy
    constructor
    · simp only [compose, hfind, hacy]
      rfl
    · intro cm hcm
      simp only [compose, hfind, hacy] at hcm
      cases hcm
  · intro cm hcm
    simp only [compose, hfind] at hcm
    by_cases hacy : acyclicB ((mergeVars ms).map (·.1)) (mergeEdges ms) = true
    · rw [if_pos hacy] at hcm
      cases hcm
      exact ⟨hacy, rfl⟩
    · rw [if_neg hacy] at hcm
      cases hcm

/-- Witness for C5: composing `X → Y` with `Y → X` introduces a cycle,
the call fails with `CycleIntroduced` naming both vertices, and no model
is returned. -/
theorem C5_compose_atomic_cycle_witness :
    compose [mA5, mB5] = .error (.cycleIntroduced ["X", "Y"])
    ∧ ∀ cm, compose [mA5, mB5] ≠ .ok cm := by
  obtain ⟨-, h2, -⟩ := C5_compose_atomic_cycle [mA5, mB5] (by decide)
  obtain ⟨he, hn⟩ := h2 (by decide)
  refine ⟨?_, hn⟩
  rw [he]
  rw [show leftoverOf ((mergeVars [mA5, mB5]).map (·.1)) (mergeEdges [mA5, mB5]) =
    ["X", "Y"] by decide]

/-! ## C6: determinism and tie-break characterization of the merge -/

theorem lookupFst_foldl_mergeKeyedAcc {α : Type} :
    ∀ (l acc : List (String × α)) (k : String),
    lookupFst (l.foldl mergeKeyedAcc acc) k =
      (match lookupFst acc k with
       | some v => some v
       | none => lookupFst l k) := by
  intro l
  induction l with
  | nil => intro acc k; cases hv : lookupFst acc k <;> simp [lookupFst, hv]
  | cons p rest ih =>
      intro acc k
      rw [List.foldl_cons, ih]
      by_cases hin : hasKey acc p.1 = true
      · rw [mergeKeyedAcc, if_pos hin]
        by_cases hpk : p.1 = k
        · have hsome : (lookupFst acc k).isSome = true := by
            rw [lookupFst_isSome_iff_hasKey]
            exact hpk ▸ hin
          cases hv : lookupFst acc k with
          | none => rw [hv] at hsome; cases hsome
          | some v => simp [hv]
        · cases hv : lookupFst acc k <;> simp [hv, lookupFst, hpk]
      · rw [mergeKeyedAcc, if_neg hin]
        cases hv : lookupFst acc k with
        | some v => simp [lookupFst_append, hv]
        | none =>
            by_cases hpk : p.1 = k <;>
              simp [lookupFst_append, hv, lookupFst, hpk]

/-- Two-list instantiation of the keyed merge: earliest occurrence wins. -/
theorem mergeKeyed_pair_lookup {α : Type} (l₁ l₂ : List (String × α)) (k : String) :
    lookupFst ((l₁ ++ l₂).foldl mergeKeyedAcc []) k =
      (lookupFst l₁ k).or (lookupFst l₂ k) := by
  rw [lookupFst_foldl_mergeKeyedAcc, lookupFst_append]
  cases hv : lookupFst l₁ k <;> simp [lookupFst, hv]

theorem findEdge_map_conf (e : Edge) (acc : List Edge) (s t : String) :
    findEdge (acc.map (fun f =>
      if f.source == e.source && f.target == e.target
          && decide (f.confidence < e.confidence) then e else f)) s t =
    Option.map (fun f =>
      if f.source == e.source && f.target == e.target
          && decide (f.confidence < e.confidence) then e else f)
      (findEdge acc s t) := by
  induction acc with
  | nil => rfl
  | cons f rest ih =>
      have hkey : ∀ f' : Edge,
          ((if f'.source == e.source && f'.target == e.target
              && decide (f'.confidence < e.confidence) then e else f').source == s
          && (if f'.source == e.source && f'.target == e.target
              && decide (f'.confidence < e.confidence) then e else f').target == t)
          = (f'.source == s && f'.target == t) := by
        intro f'
        split
        · rename_i hc
          simp only [Bool.and_eq_true, beq_iff_eq] at hc
          obtain ⟨⟨hs, ht⟩, -⟩ := hc
          rw [hs, ht]
        · rfl
      simp only [findEdge, List.map_cons] at ih ⊢
      rw [List.find?_cons, List.find?_cons, hkey f]
      cases hp : (f.source == s && f.target == t) with
      | true => simp
      | false => simpa using ih

theorem findEdge_isSome_of_any (acc : List Edge) (e : Edge)
    (h : (acc.any fun f => f.source == e.source && f.target == e.target) = true) :
    ∃ f, findEdge acc e.source e.target = some f := by
  rw [List.any_eq_true] at h
  obtain ⟨f, hf, hp⟩ := h
  have hs : (findEdge acc e.source e.target).isSome = true := by
    rw [findEdge, List.find?_isSome]
    exact ⟨f, hf, hp⟩
  cases hfe : findEdge acc e.source e.target with
  | none => rw [hfe] at hs; cases hs
  | some g => exact ⟨g, rfl⟩

theorem findEdge_key {acc : List Edge} {s t : String} {f : Edge}
    (h : findEdge acc s t = some f) : f.source = s ∧ f.target = t := by
  have := List.find?_some h
  rw [Bool.and_eq_true, beq_iff_eq, beq_iff_eq] at this
  exact this

/-- How one merged edge changes the per-key lookup: a colliding key keeps
the incumbent unless the newcomer has strictly higher confidence; a
fresh key is appended. -/
theorem findEdge_mergeEdgeAcc (acc : List Edge) (e : Edge) (s t : String) :
    findEdge (mergeEdgeAcc acc e) s t =
      if e.source = s ∧ e.target = t then
        (match findEdge acc s t with
         | some f => some (if f.confidence < e.confidence then e else f)
         | none => some e)
      else findEdge acc s t := by
  rw [mergeEdgeAcc]
  split
  · rename_i hany
    rw [findEdge_map_conf]
    by_cases hkey : e.source = s ∧ e.target = t
    · obtain ⟨hf, hfe⟩ := findEdge_isSome_of_any acc e hany
      rw [hkey.1, hkey.2] at hfe
      rw [hfe, if_pos hkey]
      obtain ⟨hfs, hft⟩ := findEdge_key hfe
      have hc : (hf.source == e.source && hf.target == e.target) = true := by
        simp [hfs, hft, hkey.1, hkey.2]
      show Option.map _ (some hf) = some (if hf.confidence < e.confidence then e else hf)
      rw [Option.map_some']
      by_cases hlt : hf.confidence < e.confidence
      · have hcond : (hf.source == e.source && hf.target == e.target
            && decide (hf.confidence < e.confidence)) = true := by
          rw [Bool.and_eq_true]
          exact ⟨hc, decide_eq_true hlt⟩
        rw [if_pos hcond, if_pos hlt]
      · have hcond : (hf.source == e.source && hf.target == e.target
            && decide (hf.confidence < e.confidence)) = false := by
          rw [decide_eq_false hlt, Bool.and_false]
        rw [if_neg (by simp [hcond]), if_neg hlt]
    · rw [if_neg hkey]
      cases hfe : findEdge acc s t with
      | none => rfl
      | some f =>
          obtain ⟨hfs, hft⟩ := findEdge_key hfe
          have hcf : (f.source == e.source && f.target == e.target) = false := by
            by_contra hcon
            simp only [Bool.not_eq_false, Bool.and_eq_true, beq_iff_eq] at hcon
            exact hkey ⟨by rw [← hcon.1, hfs], by rw [← hcon.2, hft]⟩
          have hcond : (f.source == e.source && f.target == e.target
              && decide (f.confidence < e.confidence)) = false := by
            rw [hcf, Bool.false_and]
          rw [Option.map_some', if_neg (by simp [hcond])]
  · rename_i hany
    rw [findEdge, List.find?_append]
    by_cases hkey : e.source = s ∧ e.target = t
    · have hnoneF : findEdge acc s t = none := by
        cases hfe : findEdge acc s t with
        | none => rfl
        | some f =>
            obtain ⟨hfs, hft⟩ := findEdge_key hfe
            exfalso
            apply hany
            rw [List.any_eq_true]
            refine ⟨f, List.mem_of_find?_eq_some hfe, ?_⟩
            simp [hfs, hft, hkey.1, hkey.2]
      have hnone' : List.find? (fun f => f.source == s && f.target == t) acc = none :=
        hnoneF
      rw [hnone', hnoneF, if_pos hkey]
      simp only [Option.none_or]
      rw [List.find?_cons_of_pos _ (by simp [hkey.1, hkey.2])]
    · rw [if_neg hkey]
      cases hfe : findEdge acc s t with
      | none =>
          have hfe' : List.find? (fun f => f.source == s && f.target == t) acc = none :=
            hfe
          rw [hfe', Option.none_or]
          rw [List.find?_cons_of_neg _ ?_]
          · rfl
          · intro hcon
            rw [Bool.and_eq_true, beq_iff_eq, beq_iff_eq] at hcon
            exact hkey hcon
      | some f =>
          have hfe' : List.find? (fun f => f.source == s && f.target == t) acc =
              some f := hfe
          rw [hfe']
          rfl

theorem edgeKey_not_mem_findEdge {es : List Edge} {e : Edge}
    (hnmem : (e.source, e.target) ∉ es.map (fun f => (f.source, f.target))) :
    findEdge es e.source e.target = none := by
  cases hfe : findEdge es e.source e.target with
  | none => rfl
  | some f =>
      obtain ⟨hfs, hft⟩ := findEdge_key hfe
      exfalso
      exact hnmem (List.mem_map.mpr ⟨f, List.mem_of_find?_eq_some hfe, by rw [hfs, hft]⟩)

/-- Folding a key-nodup batch of edges into an accumulator: per key, the
batch's (unique) edge competes with the accumulator's by confidence,
newcomers losing ties. -/
theorem mergeFold_char :
    ∀ (bs acc : List Edge), edgeKeysNodup bs → ∀ s t,
    findEdge (bs.foldl mergeEdgeAcc acc) s t =
      edgeMergePick (findEdge acc s t) (findEdge bs s t) := by
  intro bs
  induction bs with
  | nil =>
      intro acc _ s t
      rw [List.foldl_nil]
      rw [show findEdge [] s t = none from rfl]
      cases hv : findEdge acc s t <;> simp [hv, edgeMergePick]
  | cons e rest ih =>
      intro acc hnd s t
      have hndrest : edgeKeysNodup rest := by
        rw [edgeKeysNodup, List.map_cons, List.nodup_cons] at hnd
        exact hnd.2
      have hkeynotin : (e.source, e.target) ∉ rest.map (fun f => (f.source, f.target)) := by
        rw [edgeKeysNodup, List.map_cons, List.nodup_cons] at hnd
        exact hnd.1
      rw [List.foldl_cons, ih (mergeEdgeAcc acc e) hndrest s t, findEdge_mergeEdgeAcc]
      by_cases hkey : e.source = s ∧ e.target = t
      · have hrestnone : findEdge rest s t = none := by
          rw [← hkey.1, ← hkey.2]
          exact edgeKey_not_mem_findEdge hkeynotin
        have hconse : findEdge (e :: rest) s t = some e := by
          rw [findEdge, List.find?_cons_of_pos _ (by simp [hkey.1, hkey.2])]
        rw [if_pos hkey, hconse, hrestnone]
        cases hv : findEdge acc s t <;> simp [edgeMergePick]
      · have hconse : findEdge (e :: rest) s t = findEdge rest s t := by
          rw [findEdge, findEdge, List.find?_cons_of_neg _ ?_]
          intro hcon
          rw [Bool.and_eq_true, beq_iff_eq, beq_iff_eq] at hcon
          exact hkey hcon
        rw [if_neg hkey, hconse]

theorem foldl_mergeEdgeAcc_disjoint :
    ∀ (l acc : List Edge), edgeKeysNodup l →
    (∀ f ∈ acc, ∀ e ∈ l, ¬(f.source = e.source ∧ f.target = e.target)) →
    l.foldl mergeEdgeAcc acc = acc ++ l := by
  intro l
  induction l with
  | nil => intro acc _ _; simp
  | cons e rest ih =>
      intro acc hnd hdisj
      have hany : (acc.any fun f => f.source == e.source && f.target == e.target) = false := by
        rw [Bool.eq_false_iff]
        intro hcon
        rw [List.any_eq_true] at hcon
        obtain ⟨f, hf, hp⟩ := hcon
        rw [Bool.and_eq_true, beq_iff_eq, beq_iff_eq] at hp
        exact hdisj f hf e (List.mem_cons_self _ _) hp
      have hstep : mergeEdgeAcc acc e = acc ++ [e] := by
        rw [mergeEdgeAcc, if_neg (by rw [hany]; exact Bool.false_ne_true)]
      rw [List.foldl_cons, hstep, ih (acc ++ [e]) ?_ ?_]
      · simp
      · rw [edgeKeysNodup, List.map_cons, List.nodup_cons] at hnd
        exact hnd.2
      · intro f hf g hg
        rcases List.mem_append.mp hf with hf | hf
        · exact hdisj f hf g (List.mem_cons_of_mem _ hg)
        · simp only [List.mem_singleton] at hf
          subst hf
          intro hcon
          rw [edgeKeysNodup, List.map_cons, List.nodup_cons] at hnd
          exact hnd.1 (List.mem_map.mpr ⟨g, hg, by rw [hcon.1, hcon.2]⟩)

theorem mergeEdges_pair_lookup (A B : CausalModel)
    (hA : edgeKeysNodup A.edges) (hB : edgeKeysNodup B.edges) (s t : String) :
    findEdge (mergeEdges [A, B]) s t =
      edgeMergePick (findEdge A.edges s t) (findEdge B.edges s t) := by
  have hflat : ([A, B].flatMap (·.edges)) = A.edges ++ B.edges := by simp
  rw [mergeEdges, hflat, List.foldl_append,
    foldl_mergeEdgeAcc_disjoint A.edges [] hA (by intro f hf; cases hf),
    List.nil_append, mergeFold_char B.edges A.edges hB s t]

theorem compose_ok_eq {ms : List CausalModel} {cm : CausalModel}
    (h : compose ms = .ok cm) :
    cm = ⟨"composed", "Composed Model", mergeVars ms, mergeEdges ms,
      mergeEqs ms, mergeAssumptions ms⟩ := by
  simp only [compose] at h
  cases hfv : findRefViolation (mergeVars ms) (mergeEdges ms) with
  | some e => simp [hfv] at h
  | none =>
      simp only [hfv] at h
      split_ifs at h with hacy
      exact (Except.ok.inj h).symm

/-- **C6.** `compose` is deterministic — identical ordered inputs give
identical results — and `compose [A, B]` versus `compose [B, A]` can
differ only in the tie-break outcomes: per variable id the earliest
model's definition wins, per `(source, target)` edge key the higher
confidence wins with the earliest model winning ties, per equation
target the earliest model wins, and the assumption lists are permutations
of each other. -/
theorem C6_compose_deterministic_tiebreaks (A B : CausalModel)
    (hA : edgeKeysNodup A.edges) (hB : edgeKeysNodup B.edges) :
    (∀ ms₁ ms₂ : List CausalModel, ms₁ = ms₂ → compose ms₁ = compose ms₂)
    ∧ ∀ m₁ m₂, compose [A, B] = .ok m₁ → compose [B, A] = .ok m₂ →
        (∀ k, lookupFst m₁.variables k =
            (lookupFst A.variables k).or (lookupFst B.variables k)
          ∧ lookupFst m₂.variables k =
            (lookupFst B.variables k).or (lookupFst A.variables k))
        ∧ (∀ s t, findEdge m₁.edges s t =
            edgeMergePick (findEdge A.edges s t) (findEdge B.edges s t)
          ∧ findEdge m₂.edges s t =
            edgeMergePick (findEdge B.edges s t) (findEdge A.edges s t))
        ∧ (∀ k, lookupFst m₁.equations k =
            (lookupFst A.equations k).or (lookupFst B.equations k)
          ∧ lookupFst m₂.equations k =
            (lookupFst B.equations k).or (lookupFst A.equations k))
        ∧ m₁.assumptions.Perm m₂.assumptions := by
  refine ⟨fun ms₁ ms₂ h => h ▸ rfl, ?_⟩
  intro m₁ m₂ h₁ h₂
  have he₁ := compose_ok_eq h₁
  have he₂ := compose_ok_eq h₂
  subst he₁
  subst he₂
  refine ⟨?_, ?_, ?_, ?_⟩
  · intro k
    constructor
    · show lookupFst (mergeVars [A, B]) k = _
      rw [mergeVars, show ([A, B].flatMap (·.variables)) =
        A.variables ++ B.variables by simp, mergeKeyed_pair_lookup]
    · show lookupFst (mergeVars [B, A]) k = _
      rw [mergeVars, show ([B, A].flatMap (·.variables)) =
        B.variables ++ A.variables by simp, mergeKeyed_pair_lookup]
  · intro s t
    exact ⟨mergeEdges_pair_lookup A B hA hB s t, mergeEdges_pair_lookup B A hB hA s t⟩
  · intro k
    constructor
    · show lookupFst (mergeEqs [A, B]) k = _
      rw [mergeEqs, show ([A, B].flatMap (·.equations)) =
        A.equations ++ B.equations by simp, mergeKeyed_pair_lookup]
    · show lookupFst (mergeEqs [B, A]) k = _
      rw [mergeEqs, show ([B, A].flatMap (·.equations)) =
        B.equations ++ A.equations by simp, mergeKeyed_pair_lookup]
  · show (mergeAssumptions [A, B]).Perm (mergeAssumptions [B, A])
    rw [mergeAssumptions, mergeAssumptions]
    simp only [List.flatMap_cons, List.flatMap_nil, List.append_nil]
    exact List.perm_append_comm

/-- Witness for C6 at two concrete models sharing their variable ids,
their single edge key and their equation target: both compositions
succeed, and each result's components are exactly the characterized
tie-break outcomes. -/
theorem C6_compose_deterministic_tiebreaks_witness :
    ∃ m₁ m₂, compose [mA6, mB6] = .ok m₁ ∧ compose [mB6, mA6] = .ok m₂
      ∧ lookupFst m₁.variables "X" =
          (lookupFst mA6.variables "X").or (lookupFst mB6.variables "X")
      ∧ findEdge m₁.edges "X" "Y" =
          edgeMergePick (findEdge mA6.edges "X" "Y") (findEdge mB6.edges "X" "Y")
      ∧ findEdge m₂.edges "X" "Y" =
          edgeMergePick (findEdge mB6.edges "X" "Y") (findEdge mA6.edges "X" "Y")
      ∧ lookupFst m₁.equations "Y" =
          (lookupFst mA6.equations "Y").or (lookupFst mB6.equations "Y")
      ∧ m₁.assumptions.Perm m₂.assumptions := by
  obtain ⟨-, hrest⟩ := C6_compose_deterministic_tiebreaks mA6 mB6
    (by rw [edgeKeysNodup]; decide) (by rw [edgeKeysNodup]; decide)
  have hrv1 : findRefViolation (mergeVars [mA6, mB6]) (mergeEdges [mA6, mB6]) = none := by
    decide
  have hac1 : acyclicB ((mergeVars [mA6, mB6]).map (·.1)) (mergeEdges [mA6, mB6]) = true := by
    decide
  have hrv2 : findRefViolation (mergeVars [mB6, mA6]) (mergeEdges [mB6, mA6]) = none := by
    decide
  have hac2 : acyclicB ((mergeVars [mB6, mA6]).map (·.1)) (mergeEdges [mB6, mA6]) = true := by
    decide
  have h1 : compose [mA6, mB6] = .ok ⟨"composed", "Composed Model", mergeVars [mA6, mB6],
      mergeEdges [mA6, mB6], mergeEqs [mA6, mB6], mergeAssumptions [mA6, mB6]⟩ := by
    simp [compose, hrv1, hac1]
  have h2 : compose [mB6, mA6] = .ok ⟨"composed", "Composed Model", mergeVars [mB6, mA6],
      mergeEdges [mB6, mA6], mergeEqs [mB6, mA6], mergeAssumptions [mB6, mA6]⟩ := by
    simp [compose, hrv2, hac2]
  obtain ⟨hvars, hedges, heqs, hassump⟩ := hrest _ _ h1 h2
  exact ⟨_, _, h1, h2, (hvars "X").1, (hedges "X" "Y").1, (hedges "X" "Y").2,
    (heqs "Y").1, hassump⟩

/-! ## C7–C10: the website pages -/

theorem replaceFirstList_startsWith (pat repl s : List Char) (h : pat.isPrefixOf s = true) :
    replaceFirstList pat repl s = repl ++ s.drop pat.length := by
  cases s with
  | nil =>
      rw [replaceFirstList, if_pos h]
      simp
  | cons c rest => rw [replaceFirstList, if_pos h]

theorem replaceFirstList_not_contained (pat : List Char) :
    ∀ repl s, containsSub pat s = false → replaceFirstList pat repl s = s := by
  intro repl s
  induction s with
  | nil =>
      intro h
      rw [containsSub] at h
      rw [replaceFirstList, if_neg (by rw [h]; exact Bool.false_ne_true)]
  | cons c rest ih =>
      intro h
      rw [containsSub, Bool.or_eq_false_iff] at h
      rw [replaceFirstList, if_neg (by rw [h.1]; exact Bool.false_ne_true), ih h.2]

theorem replaceFirst_eq_drop (pat line : String) (h : startsWithL pat line = true) :
    replaceFirst pat "" line = strDrop pat.data.length line := by
  rw [replaceFirst, strDrop]
  exact congrArg String.mk
    (by rw [replaceFirstList_startsWith pat.data ("" : String).data line.data h]; simp)

theorem renderLine_eq_claim (line : String) : renderLine line = renderLineClaim line := by
  rw [renderLine, renderLineClaim]
  split_ifs with h1 h2 h3 h4 h5 h6
  · exact congrArg RLine.h1 (replaceFirst_eq_drop "# " line h1)
  · exact congrArg RLine.h2 (replaceFirst_eq_drop "## " line h2)
  · exact congrArg RLine.h3 (replaceFirst_eq_drop "### " line h3)
  all_goals rfl

/-- **C10.** `SpecPage` renders exactly one element per `'\n'`-separated
line, classifying each line by the first matching rule in the fixed
order (h1, h2, h3, list item, rule, break, paragraph), with heading
lines showing the line minus the first occurrence of their prefix —
which, for a line starting with the prefix, is the line minus its first
`prefix.length` characters — and list items the line minus its first two
characters. -/
theorem C10_specpage_line_classifier :
    (∀ line, renderLine line = renderLineClaim line)
    ∧ ∀ content, (renderSpec content).length = (specLines content).length := by
  exact ⟨renderLine_eq_claim, fun content => List.length_map _ _⟩

theorem mapFiles_ok (l : List (String × Json)) :
    mapFiles (l.map (fun f => (f.1, Except.ok f.2))) =
      .ok (l.map (fun f => entryOfFile f.1 f.2)) := by
  induction l with
  | nil => rfl
  | cons f rest ih => simp [mapFiles, ih]

theorem modelsPage_parsed (files : List (String × Json)) :
    modelsPage (.ok (files.map (fun f => (f.1, Except.ok f.2)))) =
      .ok ((files.filter (fun f => endsWithL ".json" f.1)).map
        (fun f => entryOfFile f.1 f.2)) := by
  show mapFiles _ = _
  rw [List.filter_map]
  exact mapFiles_ok _

theorem mapFiles_error :
    ∀ l : List (String × Except String Json),
    (∃ f ∈ l, ∃ e, f.2 = .error e) → ∃ e', mapFiles l = .error e' := by
  intro l
  induction l with
  | nil => rintro ⟨f, hf, -⟩; cases hf
  | cons f rest ih =>
      rintro ⟨g, hg, e, hge⟩
      rcases List.mem_cons.mp hg with hg | hg
      · subst hg
        rw [mapFiles, hge]
        exact ⟨e, rfl⟩
      · cases hf2 : f.2 with
        | error e₀ => exact ⟨e₀, by rw [mapFiles, hf2]⟩
        | ok j =>
            obtain ⟨e', he'⟩ := ih ⟨g, hg, e, hge⟩
            refine ⟨e', ?_⟩
            rw [mapFiles, hf2, he']

/-- **C9.** A failing directory read propagates, and one `.json` file
that fails to parse makes the whole `ModelsPage` render fail: no listing
is produced for any model. -/
theorem C9_modelspage_no_recovery :
    (∀ e, modelsPage (.error e) = .error e)
    ∧ ∀ (files : List (String × Except String Json)) (f : String × Except String Json)
        (e : String), f ∈ files → endsWithL ".json" f.1 = true → f.2 = .error e →
        ∃ e', modelsPage (.ok files) = .error e' := by
  refine ⟨fun e => rfl, ?_⟩
  intro files f e hf hjson herr
  have hmem : f ∈ files.filter (fun g => endsWithL ".json" g.1) :=
    List.mem_filter.mpr ⟨hf, hjson⟩
  exact mapFiles_error _ ⟨f, hmem, e, herr⟩

/-- Witness for C9: a directory-read failure propagates, and one
malformed `.json` file aborts the listing. -/
theorem C9_modelspage_no_recovery_witness :
    modelsPage (.error "EACCES") = .error "EACCES"
    ∧ ∃ e', modelsPage (.ok [("good.json", .ok Json.null),
        ("bad.json", .error "Unexpected token")]) = .error e' := by
  refine ⟨(C9_modelspage_no_recovery).1 "EACCES", ?_⟩
  exact (C9_modelspage_no_recovery).2
    [("good.json", .ok Json.null), ("bad.json", .error "Unexpected token")]
    ("bad.json", .error "Unexpected token") "Unexpected token"
    (by simp) (by decide) rfl

/-- **C8.** `ModelsPage` lists exactly one entry per `.json` file: the
entry id drops the first occurrence of `.opencm.json` from the filename
(a filename without that substring, such as `foo.json`, is listed with
its name unchanged), the display name falls back to the filename when
`content.metadata.name` is absent, the description and domain fall back
to their fixed defaults, and the `model.name` field is never consulted —
entries depend only on the filename and the `metadata` object. -/
theorem C8_models_listing (files : List (String × Json)) (fn : String) (c : Json) :
    modelsPage (.ok (files.map (fun f => (f.1, Except.ok f.2)))) =
      .ok ((files.filter (fun f => endsWithL ".json" f.1)).map
        (fun f => entryOfFile f.1 f.2))
    ∧ (entryOfFile fn c).id = replaceFirst ".opencm.json" "" fn
    ∧ (containsSub (".opencm.json" : String).data fn.data = false →
        (entryOfFile fn c).id = fn)
    ∧ (metaField c "name" = none → (entryOfFile fn c).name = .str fn)
    ∧ (metaField c "description" = none →
        (entryOfFile fn c).description = .str "A validated causal model in OpenCM format.")
    ∧ (metaField c "domain" = none → (entryOfFile fn c).domain = .str "General")
    ∧ (∀ fields₁ fields₂, jsLookup fields₁ "metadata" = jsLookup fields₂ "metadata" →
        entryOfFile fn (.obj fields₁) = entryOfFile fn (.obj fields₂)) := by
  refine ⟨modelsPage_parsed files, rfl, ?_, ?_, ?_, ?_, ?_⟩
  · intro h
    show replaceFirst ".opencm.json" "" fn = fn
    rw [replaceFirst]
    exact congrArg String.mk (replaceFirstList_not_contained _ _ _ h)
  · intro h
    show jsOr (metaField c "name") (.str fn) = .str fn
    rw [h]
    rfl
  · intro h
    show jsOr (metaField c "description") _ = _
    rw [h]
    rfl
  · intro h
    show jsOr (metaField c "domain") _ = _
    rw [h]
    rfl
  · intro fields₁ fields₂ h
    rw [entryOfFile, entryOfFile]
    have hmf : ∀ k, metaField (.obj fields₁) k = metaField (.obj fields₂) k := by
      intro k
      rw [metaField, metaField]
      show (jsLookup fields₁ "metadata").bind _ = (jsLookup fields₂ "metadata").bind _
      rw [h]
    rw [hmf "name", hmf "description", hmf "domain"]

/-- Witness for C8 at concrete files: `m.opencm.json` is listed with id
`m` and all fallbacks, a non-`.json` file is skipped, and `foo.json`
keeps its full name as id. -/
theorem C8_models_listing_witness :
    modelsPage (.ok [("m.opencm.json", .ok Json.null), ("x.txt", .ok Json.null)]) =
      .ok [entryOfFile "m.opencm.json" Json.null]
    ∧ (entryOfFile "m.opencm.json" Json.null).id = "m"
    ∧ (entryOfFile "foo.json" Json.null).id = "foo.json"
    ∧ (entryOfFile "m.opencm.json" Json.null).name = .str "m.opencm.json"
    ∧ (entryOfFile "m.opencm.json" Json.null).description =
        .str "A validated causal model in OpenCM format."
    ∧ (entryOfFile "m.opencm.json" Json.null).domain = .str "General"
    ∧ entryOfFile "m.opencm.json" (.obj [("model", .obj [("name", .str "secret")])]) =
        entryOfFile "m.opencm.json" (.obj []) := by
  obtain ⟨h1, h2, h3, h4, h5, h6, h7⟩ :=
    C8_models_listing [("m.opencm.json", Json.null), ("x.txt", Json.null)]
      "m.opencm.json" Json.null
  obtain ⟨-, -, h3f, -, -, -, -⟩ :=
    C8_models_listing [] "foo.json" Json.null
  refine ⟨h1, h2.trans (by decide), (h3f (by decide)), h4 rfl, h5 rfl, h6 rfl,
    h7 [("model", .obj [("name", .str "secret")])] [] rfl⟩

/-- **C7.** The pages embed no engine logic: `ModelsPage` lists every
file whose name ends in `.json` and whose content parses — one entry per
file, with no diagnostics and no failure, however invalid the document
may be as a causal model — and each entry depends only on the filename
and the `metadata` field of the parsed content; `SpecPage` is a pure
per-line markdown-to-HTML conversion of the document text.  Neither page
calls validation, simulation or composition. -/
theorem C7_pages_no_engine_logic :
    (∀ files : List (String × Json),
      ∃ es, modelsPage (.ok (files.map (fun f => (f.1, Except.ok f.2)))) = .ok es
        ∧ es.length = (files.filter (fun f => endsWithL ".json" f.1)).length)
    ∧ (∀ fn c₁ c₂, c₁.get? "metadata" = c₂.get? "metadata" →
        entryOfFile fn c₁ = entryOfFile fn c₂)
    ∧ (∀ content, renderSpec content = (specLines content).map renderLine) := by
  refine ⟨?_, ?_, fun content => rfl⟩
  · intro files
    exact ⟨_, modelsPage_parsed files, by rw [List.length_map]⟩
  · intro fn c₁ c₂ h
    rw [entryOfFile, entryOfFile]
    have hmf : ∀ k, metaField c₁ k = metaField c₂ k := by
      intro k
      rw [metaField, metaField, h]
    rw [hmf "name", hmf "description", hmf "domain"]

/-- Witness for C7: a document that fails every validator rule
(`Json.null` has none of the required fields) is still listed with no
diagnostic, and an entry ignores everything outside `metadata`. -/
theorem C7_pages_no_engine_logic_witness :
    (∃ es, modelsPage (.ok [("m.opencm.json", .ok Json.null)]) = .ok es ∧ es.length = 1)
    ∧ entryOfFile "m.opencm.json" (.obj [("edges", .arr [])]) =
        entryOfFile "m.opencm.json" (.obj []) := by
  obtain ⟨h1, h2, -⟩ := C7_pages_no_engine_logic
  exact ⟨(h1 [("m.opencm.json", Json.null)]),
    h2 "m.opencm.json" (.obj [("edges", .arr [])]) (.obj []) rfl⟩

end OpenCM
